import Mathlib

/-!
# k-d tree nearest-neighbour search (kdtree_bonus.cpp)

A shallow embedding of `src/kdtree_bonus.cpp`.

* `float` values are elements of an arbitrary linearly ordered commutative ring `α`
  (exact arithmetic, no rounding); concrete evaluations are carried out at `α = ℤ`.
* A `Node*` is a value of type `Node α`: `Node.nullptr` or a node with a point and two children.
* A `Point**` together with its `int num_points` is the list of the `num_points` points of
  the slice.
* `exit(1)`, a null dereference, an integer division by zero and a failed `assert` are values of
  `Fault`; code that can reach one of them returns `Except Fault _`.
-/

namespace KdTree

/-! ## Data model -/

/-- Modelled from the spec: class `Point` is declared in `Utility.hpp`, which is not part of the
sources. It has the fields the code reads: `dimension`, `ID` and `coordinates`. `coordinates`
is a `float*`; it is modelled by the list of the values readable from that address on. -/
structure Point (α : Type) where
  dimension : Nat
  ID : Int
  coordinates : List α
deriving DecidableEq

/-- Modelled from the spec: class `Node` is declared in `Utility.hpp`. A value of this type is a
`Node*`: the null pointer, or the node `new Node(point, left, right)`. -/
inductive Node (α : Type) where
  | nullptr : Node α
  | mk (point : Point α) (left right : Node α) : Node α
deriving DecidableEq

/-- The ways in which a run stops without returning a value. -/
inductive Fault where
  | exited (status : Nat) (message : String)
  | null_dereference
  | division_by_zero
  | assertion_failed
deriving DecidableEq

deriving instance DecidableEq for Except

/-- An `__m256`: eight lanes. -/
abbrev M256 (α : Type) := Fin 8 → α

section Defs

variable {α : Type} [LinearOrderedCommRing α]

/-- The read `p.coordinates[i]`. A read past the end of the modelled memory yields `0`. -/
def Point.coord (p : Point α) (i : Nat) : α := p.coordinates.getD i 0

/-! ## Point::distance_squared (lines 22-58) -/

/-- Lines 35-49: one pass of the loop body at offset `i`: load eight values of `a` and of `b`,
subtract, square, and add to `partial_sum`. -/
def simd_body (a b : Point α) (i : Nat) (partial_sum : M256 α) : M256 α :=
  fun k =>
    let tmp := a.coord (i + k.val) - b.coord (i + k.val)
    let mul := tmp * tmp
    mul + partial_sum k

/-- Line 33: `for (int i = 0; i < a.dimension; i += 8)`, started at `i` with the accumulator
`partial_sum`. The first argument bounds the number of passes. -/
def simd_loop (a b : Point α) : Nat → Nat → M256 α → M256 α
  | 0, _, partial_sum => partial_sum
  | fuel + 1, i, partial_sum =>
    if i < a.dimension then simd_loop a b fuel (i + 8) (simd_body a b i partial_sum)
    else partial_sum

/-- Lines 53-56: `for (int i = 0; i < 8; i++) dist += partial_sum[i];` starting from `dist = 0`. -/
def horizontal_sum (partial_sum : M256 α) : α :=
  (List.finRange 8).foldl (fun dist i => dist + partial_sum i) 0

/-- The text printed at line 24. -/
def dimension_message : String := "Dimensions do not match!"

/-- Lines 22-58, `Point::distance_squared(Point &a, Point &b)`. The loop needs at most
`a.dimension` passes, which is the bound given to `simd_loop`. -/
def Point.distance_squared (a b : Point α) : Except Fault α :=
  if a.dimension ≠ b.dimension then
    .error (.exited 1 dimension_message)
  else
    .ok (horizontal_sum (simd_loop a b a.dimension 0 (fun _ => 0)))

/-- The scalar reference of the spec: the sum over the axes `0 .. d-1` of the squared
coordinate differences. -/
def scalar_sum_of_squares (a b : Point α) (d : Nat) : α :=
  (List.range d).foldl (fun acc i => acc + (a.coord i - b.coord i) * (a.coord i - b.coord i)) 0

/-! ## build_tree (lines 63-109) -/

/-- Modelled from the spec: `Point::compare` is declared in `Utility.hpp`. The spec has the
points sorted by their coordinate value on `axis`, so `compare(a, b, axis)` is the strict
comparison of the two coordinates on `axis`. -/
def Point.compare (a b : Point α) (axis : Nat) : Bool :=
  decide (a.coord axis < b.coord axis)

/-- The call `std::sort(first, last, less)` on the slice `l`: the elements of `l` in
non-descending order of `less` (an insertion sort, which is what `std::sort` runs on short
ranges). -/
def std_sort {β : Type} (less : β → β → Bool) (l : List β) : List β :=
  l.insertionSort (fun x y => less y x = false)

/-- Lines 79-81: the slice after `std::sort(point_list, point_list + (num_points - 1), ...)`:
the sorted range ends one element before the end of the slice. -/
def sorted_slice (point_list : List (Point α)) (axis : Nat) : List (Point α) :=
  let num_points := point_list.length
  std_sort (fun a b => Point.compare a b axis) (point_list.take (num_points - 1))
    ++ point_list.drop (num_points - 1)

/-- Lines 103-104: wait for both tasks and return `new Node(*median, left_node, right_node)`;
a fault in the construction of a child is a fault of the whole. -/
def join_children (median : Point α) (left_node right_node : Except Fault (Node α)) :
    Except Fault (Node α) :=
  match left_node with
  | .error e => .error e
  | .ok left =>
    match right_node with
    | .error e => .error e
    | .ok right => .ok (.mk median left right)

/-- Lines 63-105, `build_tree_rec(point_list, num_points, depth)`, where `point_list` is the
slice of `num_points` points. `depth % dim` with `dim = 0` is a division by zero. The first
argument bounds the recursion depth. -/
def build_tree_rec_fuel : Nat → List (Point α) → Nat → Except Fault (Node α)
  | 0, _, _ => .ok .nullptr
  | fuel + 1, point_list, depth =>
    match point_list with
    | [] => .ok .nullptr
    | [p] => .ok (.mk p .nullptr .nullptr)
    | p0 :: _ :: _ =>
      let num_points := point_list.length
      let dim := p0.dimension
      if dim = 0 then .error .division_by_zero
      else
        let axis := depth % dim
        let sorted := sorted_slice point_list axis
        let left_points := sorted
        let num_points_left := num_points / 2
        let num_points_right := num_points - (num_points / 2) - 1
        match sorted.drop (num_points / 2) with
        | [] => .ok .nullptr
        | median :: right_points =>
          join_children median
            (build_tree_rec_fuel fuel (left_points.take num_points_left) (depth + 1))
            (build_tree_rec_fuel fuel (right_points.take num_points_right) (depth + 1))

/-- The function `build_tree_rec`: every recursive call is on a strictly shorter slice, so
`num_points` levels of recursion are enough. -/
def build_tree_rec (point_list : List (Point α)) (depth : Nat) : Except Fault (Node α) :=
  build_tree_rec_fuel point_list.length point_list depth

/-- Lines 107-109. -/
def build_tree (point_list : List (Point α)) : Except Fault (Node α) :=
  build_tree_rec point_list 0

/-! ## nearest (lines 114-175) -/

/-- Lines 149-155: compare the node returned by the recursive call into the near branch with
the running best; both `best_local` and `best_dist_local` are assigned when it is closer. -/
def adopt (query : Point α) (further best_local : Node α) (best_dist_local : α) :
    Except Fault (Node α × α) :=
  match further with
  | .nullptr => .ok (best_local, best_dist_local)
  | .mk point _ _ =>
    match point.distance_squared query with
    | .error e => .error e
    | .ok dist_further =>
      if dist_further < best_dist_local then .ok (further, dist_further)
      else .ok (best_local, best_dist_local)

/-- Lines 159-165: compare the node returned by the recursive call into the far branch with
the running best; line 162 is commented out, so only `best_local` is assigned. -/
def adopt_node (query : Point α) (further best_local : Node α) (best_dist_local : α) :
    Except Fault (Node α) :=
  match further with
  | .nullptr => .ok best_local
  | .mk point _ _ =>
    match point.distance_squared query with
    | .error e => .error e
    | .ok dist_further =>
      if dist_further < best_dist_local then .ok further
      else .ok best_local

/-- Lines 114-169, `nearest(root, query, depth, best, best_dist)`. `best_dist` is passed by
reference but never assigned, so it is an ordinary argument here. `depth % dim` with `dim = 0`
is a division by zero. -/
def nearest (root : Node α) (query : Point α) (depth : Nat) (best : Node α) (best_dist : α) :
    Except Fault (Node α) :=
  match root with
  | .nullptr => .ok .nullptr
  | .mk point left right =>
    let dim := query.dimension
    if dim = 0 then .error .division_by_zero
    else
      let axis := depth % dim
      match point.distance_squared query with
      | .error e => .error e
      | .ok d_euclidian =>
        let d_axis := query.coord axis - point.coord axis
        let d_axis_squared := d_axis * d_axis
        let best_local := if d_euclidian < best_dist then Node.mk point left right else best
        let best_dist_local := if d_euclidian < best_dist then d_euclidian else best_dist
        let search_left := nearest left query (depth + 1)
        let search_right := nearest right query (depth + 1)
        let visit_branch := if d_axis < 0 then search_left else search_right
        let other_branch := if d_axis < 0 then search_right else search_left
        match visit_branch best_local best_dist_local with
        | .error e => .error e
        | .ok further =>
          match adopt query further best_local best_dist_local with
          | .error e => .error e
          | .ok (best_local, best_dist_local) =>
            if d_axis_squared < best_dist_local then
              match other_branch best_local best_dist_local with
              | .error e => .error e
              | .ok further =>
                match adopt_node query further best_local best_dist_local with
                | .error e => .error e
                | .ok best_local => .ok best_local
            else .ok best_local

/-- The variant of `nearest` of the spec (design notes): line 162 is not commented out, the
far-branch update assigns `best_dist_local` and `best_local` as a pair, as the near-branch
update does. -/
def nearest_paired (root : Node α) (query : Point α) (depth : Nat) (best : Node α)
    (best_dist : α) : Except Fault (Node α) :=
  match root with
  | .nullptr => .ok .nullptr
  | .mk point left right =>
    let dim := query.dimension
    if dim = 0 then .error .division_by_zero
    else
      let axis := depth % dim
      match point.distance_squared query with
      | .error e => .error e
      | .ok d_euclidian =>
        let d_axis := query.coord axis - point.coord axis
        let d_axis_squared := d_axis * d_axis
        let best_local := if d_euclidian < best_dist then Node.mk point left right else best
        let best_dist_local := if d_euclidian < best_dist then d_euclidian else best_dist
        let search_left := nearest_paired left query (depth + 1)
        let search_right := nearest_paired right query (depth + 1)
        let visit_branch := if d_axis < 0 then search_left else search_right
        let other_branch := if d_axis < 0 then search_right else search_left
        match visit_branch best_local best_dist_local with
        | .error e => .error e
        | .ok further =>
          match adopt query further best_local best_dist_local with
          | .error e => .error e
          | .ok (best_local, best_dist_local) =>
            if d_axis_squared < best_dist_local then
              match other_branch best_local best_dist_local with
              | .error e => .error e
              | .ok further =>
                match adopt query further best_local best_dist_local with
                | .error e => .error e
                | .ok (best_local, _) => .ok best_local
            else .ok best_local

/-- Lines 172-175, `nearest_neighbor(root, query)`. Line 173 dereferences `root`. -/
def nearest_neighbor (root : Node α) (query : Point α) : Except Fault (Node α) :=
  match root with
  | .nullptr => .error .null_dereference
  | .mk point _ _ =>
    match point.distance_squared query with
    | .error e => .error e
    | .ok best_dist => nearest root query 0 root best_dist

/-! ## main (lines 179-334) -/

/-- Line 234: `std::numeric_limits<float>::max()`, the largest finite `float`,
`(2 - 2^-23) * 2^127`. -/
def FLT_MAX : α := 340282346638528859811704183484516925440

/-- Line 183. -/
def num_queries : Nat := 10

/-- Line 226: `int chunk_size = std::ceil(num_points / (size-1));`. The quotient is a division
of two `int`s, and `std::ceil` of an integer value is that value. `size` is the number of
processes, at least 1; with `size = 1` the divisor is zero. -/
def chunk_size (num_points size : Nat) : Except Fault Nat :=
  if size - 1 = 0 then .error .division_by_zero else .ok (num_points / (size - 1))

/-- Lines 237-242: the loop `for (i = 1; i < size; i++)` of the coordinator. The result lists
the pairs `(start, end)` sent, in rank order; the first argument counts the ranks left. -/
def send_ranges (chunk_size : Nat) : Nat → Nat → Nat → List (Nat × Nat)
  | 0, _, _ => []
  | n + 1, start, end_ => (start, end_) :: send_ranges chunk_size n end_ (end_ + chunk_size)

/-- Lines 235-242: the ranges the coordinator sends to the ranks `1 .. size-1`. -/
def coordinator_ranges (num_points size chunk_size : Nat) : List (Nat × Nat) :=
  let start := 0
  let end_ := min (start + chunk_size) num_points
  send_ranges chunk_size (size - 1) start end_

/-- Line 276: the point created for position `n` of the array `x`. -/
def index_point (dim : Nat) (x : List α) (n : Nat) : Point α :=
  ⟨dim, (n : Int) + 1, x.drop (n * dim)⟩

/-- Line 295: the id `num_points + q` of query `q`. -/
def query_id (num_points q : Nat) : Int := (num_points : Int) + (q : Int)

/-- Lines 294-295: the point created for query `q`. -/
def query_point (dim num_points : Nat) (x : List α) (q : Nat) : Point α :=
  ⟨dim, query_id num_points q, x.drop ((num_points + q) * dim)⟩

/-- Lines 273-279: the points a worker creates for its range. -/
def worker_points (dim : Nat) (x : List α) (start end_ : Nat) : List (Point α) :=
  (List.range' start (end_ - start)).map (index_point dim x)

/-- Lines 281-290: the assertion `i == chunk_size` and the tree of the worker. -/
def worker_tree (dim : Nat) (x : List α) (chunk_size start end_ : Nat) :
    Except Fault (Node α) :=
  let points := worker_points dim x start end_
  if points.length ≠ chunk_size then .error .assertion_failed
  else build_tree points

/-- Lines 297-300: the local best distance of a worker for one query. `Point::distance` is
declared in `Utility.hpp`; it is the argument `distance`. -/
def worker_local_min_distance (distance : Point α → Point α → α) (tree : Node α)
    (query : Point α) : Except Fault α :=
  match nearest_neighbor tree query with
  | .error e => .error e
  | .ok .nullptr => .error .null_dereference
  | .ok (.mk point _ _) => .ok (distance query point)

/-- Lines 269-300 for one worker and one query. -/
def worker_session (distance : Point α → Point α → α) (dim num_points : Nat) (x : List α)
    (chunk_size q : Nat) (range : Nat × Nat) : Except Fault α :=
  match worker_tree dim x chunk_size range.1 range.2 with
  | .error e => .error e
  | .ok tree => worker_local_min_distance distance tree (query_point dim num_points x q)

/-- The results of `f` on the elements of a list, or the first fault. -/
def collect {β γ : Type} (f : β → Except Fault γ) : List β → Except Fault (List γ)
  | [] => .ok []
  | b :: bs =>
    match f b with
    | .error e => .error e
    | .ok c =>
      match collect f bs with
      | .error e => .error e
      | .ok cs => .ok (c :: cs)

/-- Lines 248 and 304: `MPI_Reduce` with `MPI_MIN` and root 0: the minimum of the contribution
of rank 0 and of the contributions of the other ranks. -/
def mpi_reduce_min (contribution_0 : α) (contributions : List α) : α :=
  contributions.foldl min contribution_0

/-- The value of `global_min_dist` at rank 0 after the reduction for query `q`. -/
def global_min_dist (distance : Point α → Point α → α) (dim num_points size : Nat)
    (x : List α) (q : Nat) : Except Fault α :=
  match chunk_size num_points size with
  | .error e => .error e
  | .ok chunk =>
    match collect (worker_session distance dim num_points x chunk q)
        (coordinator_ranges num_points size chunk) with
    | .error e => .error e
    | .ok local_min_distances => .ok (mpi_reduce_min FLT_MAX local_min_distances)

/-! ## Reference definitions of the spec -/

/-- The exhaustive linear scan of the spec: the first point of the list at the smallest squared
distance (scalar sum of squares) from the query, with that distance. -/
def linear_scan (query : Point α) : List (Point α) → Option (Point α × α)
  | [] => none
  | p :: ps =>
    let d := scalar_sum_of_squares p query query.dimension
    match linear_scan query ps with
    | none => some (p, d)
    | some (p', d') => if d' < d then some (p', d') else some (p, d)

/-- The points stored in a tree. -/
def Node.points : Node α → List (Point α)
  | .nullptr => []
  | .mk point left right => point :: (left.points ++ right.points)

/-- The nodes of a tree: the non-null pointers reachable from it, itself included. -/
def Node.subnodes : Node α → List (Node α)
  | .nullptr => []
  | .mk point left right => Node.mk point left right :: (left.subnodes ++ right.subnodes)

/-- The number of nodes on the longest path from a node down to a leaf; 0 for `nullptr`. -/
def Node.height : Node α → Nat
  | .nullptr => 0
  | .mk _ left right => 1 + max left.height right.height

/-- The depth of a tree: the number of edges on the longest path from the root to a leaf. -/
def Node.depth (t : Node α) : Nat := t.height - 1

/-- The number of coordinates the loop of line 33 reads from each point of dimension `d`:
eight per pass, `d` rounded up to a multiple of 8. -/
def lanes_read (d : Nat) : Nat := 8 * ((d + 7) / 8)

/-- The spec's chunk size: the ceiling of the exact quotient of `M` by `N`. -/
def exact_ceiling (M N : Nat) : Int := ⌈(M : ℚ) / (N : ℚ)⌉

/-- The number of nodes of a tree. -/
def Node.size : Node α → Nat
  | .nullptr => 0
  | .mk _ left right => 1 + left.size + right.size

/-- The split sizes of the spec, at every node: a node that is the root of `n` points has
`n / 2` of them in its left subtree and `n - n / 2 - 1` in its right subtree. -/
def Node.split_sizes : Node α → Prop
  | .nullptr => True
  | .mk point left right =>
    left.size = (Node.mk point left right).size / 2
    ∧ right.size = (Node.mk point left right).size - (Node.mk point left right).size / 2 - 1
    ∧ left.split_sizes ∧ right.split_sizes

/-- The k-d ordering of the spec for points of dimension `dim`: at a node at depth `depth`,
with `axis = depth mod dim`, no point of the left subtree is above the point of the node on
`axis` and no point of the right subtree is below it; and so on for the children, at
`depth + 1`. -/
def Node.ordered (dim : Nat) : Node α → Nat → Prop
  | .nullptr, _ => True
  | .mk point left right, depth =>
    (∀ p ∈ left.points, p.coord (depth % dim) ≤ point.coord (depth % dim))
    ∧ (∀ p ∈ right.points, point.coord (depth % dim) ≤ p.coord (depth % dim))
    ∧ left.ordered dim (depth + 1) ∧ right.ordered dim (depth + 1)

/-- The k-d ordering can be checked by running over the tree. -/
instance Node.ordered_decidable (dim : Nat) :
    (t : Node α) → (depth : Nat) → Decidable (t.ordered dim depth)
  | .nullptr, _ => isTrue trivial
  | .mk point left right, depth =>
    have := Node.ordered_decidable dim left (depth + 1)
    have := Node.ordered_decidable dim right (depth + 1)
    inferInstanceAs (Decidable
      ((∀ p ∈ left.points, p.coord (depth % dim) ≤ point.coord (depth % dim))
      ∧ (∀ p ∈ right.points, point.coord (depth % dim) ≤ p.coord (depth % dim))
      ∧ left.ordered dim (depth + 1) ∧ right.ordered dim (depth + 1)))

/-- The split sizes can be checked by running over the tree. -/
instance Node.split_sizes_decidable : (t : Node α) → Decidable t.split_sizes
  | .nullptr => isTrue trivial
  | .mk point left right =>
    have := Node.split_sizes_decidable left
    have := Node.split_sizes_decidable right
    inferInstanceAs (Decidable
      (left.size = (Node.mk point left right).size / 2
      ∧ right.size = (Node.mk point left right).size - (Node.mk point left right).size / 2 - 1
      ∧ left.split_sizes ∧ right.split_sizes))

/-- The squared coordinate difference of two points on axis `j`. -/
def sq_diff (a b : Point α) (j : Nat) : α := (a.coord j - b.coord j) * (a.coord j - b.coord j)

/-- Lines 148-168: the visit of the near branch, the update, the pruning test and the visit of
the far branch, for the two recursive calls `visit_branch` and `other_branch`. -/
def search_branches (query : Point α) (d_axis_squared : α)
    (visit_branch other_branch : Node α → α → Except Fault (Node α))
    (best_local : Node α) (best_dist_local : α) : Except Fault (Node α) :=
  match visit_branch best_local best_dist_local with
  | .error e => .error e
  | .ok further =>
    match adopt query further best_local best_dist_local with
    | .error e => .error e
    | .ok (best_local, best_dist_local) =>
      if d_axis_squared < best_dist_local then
        match other_branch best_local best_dist_local with
        | .error e => .error e
        | .ok further =>
          match adopt_node query further best_local best_dist_local with
          | .error e => .error e
          | .ok best_local => .ok best_local
      else .ok best_local

/-- The same lines in the variant with line 162. -/
def search_branches_paired (query : Point α) (d_axis_squared : α)
    (visit_branch other_branch : Node α → α → Except Fault (Node α))
    (best_local : Node α) (best_dist_local : α) : Except Fault (Node α) :=
  match visit_branch best_local best_dist_local with
  | .error e => .error e
  | .ok further =>
    match adopt query further best_local best_dist_local with
    | .error e => .error e
    | .ok (best_local, best_dist_local) =>
      if d_axis_squared < best_dist_local then
        match other_branch best_local best_dist_local with
        | .error e => .error e
        | .ok further =>
          match adopt query further best_local best_dist_local with
          | .error e => .error e
          | .ok (best_local, _) => .ok best_local
      else .ok best_local

/-- The value `distance_squared` returns for a point of the dimension of the query: the sum of
the squared differences of the coordinates the loop of line 33 reads. -/
def read_distance (p query : Point α) : α :=
  scalar_sum_of_squares p query (lanes_read query.dimension)

/-- A running best of a search for `query`: a node, not null, whose point has the dimension of
the query, together with the squared distance of that point to the query. -/
def IsBest (query : Point α) (best : Node α) (best_dist : α) : Prop :=
  ∃ point left right, best = .mk point left right ∧ point.dimension = query.dimension
    ∧ best_dist = read_distance point query

/-- What a call `nearest(root, query, depth, best, best_dist)` returns in `r`: null for the null
tree; otherwise a node, the incoming best or a node of the tree, not farther from the query than
the incoming best, and, in a k-d ordered tree, not farther than any point of the tree. -/
def SearchResult (query : Point α) (root : Node α) (depth : Nat) (best : Node α)
    (best_dist : α) (r : Node α) : Prop :=
  (root = .nullptr ∧ r = .nullptr)
    ∨ (root ≠ .nullptr ∧ ∃ v, IsBest query r v ∧ v ≤ best_dist
        ∧ (r = best ∨ r ∈ root.subnodes)
        ∧ (root.ordered query.dimension depth →
            ∀ p ∈ root.points, v ≤ read_distance p query))

/-- Whether the local search of query `q` by the worker `rank` returns a node (lines 271-300):
the worker gets the range sent to it, builds its tree and calls `nearest_neighbor`; `false`
when one of these ends in a fault. -/
def search_returns (dim num_points size : Nat) (x : List α) (rank q : Nat) : Bool :=
  match chunk_size num_points size with
  | .error _ => false
  | .ok chunk =>
    match (coordinator_ranges num_points size chunk).get? (rank - 1) with
    | none => false
    | some range =>
      match worker_session (fun _ _ => (0 : α)) dim num_points x chunk q range with
      | .error _ => false
      | .ok _ => true

end Defs

/-! ## The per-query message protocol (lines 243-250 and 292-306)

The processes and the threads of a worker run concurrently. A run is a sequence of events, each
one atomic step of one process:

* a thread of a worker finishes the local search of one iteration of the query loop
  (lines 294-300); the iterations of a `parallel for` finish in any order; a search that ends
  in a fault (a null tree dereferenced at line 173, the exit of line 25, a division by zero)
  never finishes, and the iteration never reaches its `ordered` section;
* a worker runs the `ordered` section of its next iteration (lines 301-306); OpenMP runs these
  sections in iteration order, and only after the rest of the iteration body before it;
* the coordinator completes the `MPI_Recv` of line 245 from rank `i`; messages of one sender
  with one tag are received in the order sent;
* the coordinator completes the reduction and prints the line (lines 248-249).

Every interleaving of these events is a schedule; blocking of `MPI_Send` or of the reduction in
a worker, and the end of a worker process at a fault, only remove schedules. Which searches
return is the argument `returns` (rank, query); for the program it is `search_returns`. -/

/-- The state of the pool: per rank the iterations whose search has finished, the next
iteration to enter its ordered section and the tag-2 messages sent and not yet received (oldest
first); the loop variables `q`, `i` and the variable `qid` of the coordinator; and the query ids
of the lines printed so far. -/
structure Pool where
  finished : Nat → List Nat
  ordered_next : Nat → Nat
  channel : Nat → List Int
  q : Nat
  i : Nat
  qid : Int
  lines : List Int

/-- The atomic steps of a run. -/
inductive Event where
  | search_done (rank q : Nat)
  | ordered_section (rank : Nat)
  | receive
  | emit
deriving DecidableEq

/-- The state before any step: line 233 sets `qid = -999`, line 244 starts at `i = 1`. -/
def Pool.init : Pool :=
  { finished := fun _ => [], ordered_next := fun _ => 0, channel := fun _ => [],
    q := 0, i := 1, qid := -999, lines := [] }

/-- One step of the pool with `size` processes and `queries` queries; `none` when the event
cannot happen in the state. The search of query `q` at `rank` finishes only if it returns. -/
def Pool.step (returns : Nat → Nat → Bool) (num_points size queries : Nat) (s : Pool) :
    Event → Option Pool
  | .search_done rank q =>
    if 1 ≤ rank ∧ rank < size ∧ q < queries ∧ returns rank q = true
        ∧ q ∉ s.finished rank then
      some { s with finished := Function.update s.finished rank (q :: s.finished rank) }
    else none
  | .ordered_section rank =>
    if 1 ≤ rank ∧ rank < size ∧ s.ordered_next rank < queries
        ∧ s.ordered_next rank ∈ s.finished rank then
      some { s with
        channel := Function.update s.channel rank
          (s.channel rank ++ [query_id num_points (s.ordered_next rank)])
        ordered_next := Function.update s.ordered_next rank (s.ordered_next rank + 1) }
    else none
  | .receive =>
    if s.q < queries ∧ s.i < size then
      match s.channel s.i with
      | [] => none
      | message :: rest =>
        some { s with qid := message, channel := Function.update s.channel s.i rest,
                      i := s.i + 1 }
    else none
  | .emit =>
    if s.q < queries ∧ ¬ s.i < size then
      some { s with lines := s.lines ++ [s.qid], q := s.q + 1, i := 1 }
    else none

/-- The state after a schedule, from `start`; `none` when some event of the schedule cannot
happen where it stands. -/
def Pool.run_from (returns : Nat → Nat → Bool) (num_points size queries : Nat)
    (start : Pool) : List Event → Option Pool
  | [] => some start
  | e :: es =>
    match Pool.step returns num_points size queries start e with
    | none => none
    | some s => Pool.run_from returns num_points size queries s es

/-- The state after a schedule from the initial state. -/
def Pool.run (returns : Nat → Nat → Bool) (num_points size queries : Nat)
    (schedule : List Event) : Option Pool :=
  Pool.run_from returns num_points size queries Pool.init schedule

/-- The number of tag-2 messages the coordinator has received from `rank`. -/
def Pool.received (s : Pool) (rank : Nat) : Nat := s.q + (if rank < s.i then 1 else 0)

/-- What holds in every state of a run. -/
structure Pool.inv (returns : Nat → Nat → Bool) (num_points size queries : Nat) (s : Pool) :
    Prop where
  q_le : s.q ≤ queries
  i_pos : 1 ≤ s.i
  i_le : s.i ≤ size
  sent : ∀ rank, 1 ≤ rank → rank < size →
    s.received rank ≤ s.ordered_next rank ∧ s.ordered_next rank ≤ queries
      ∧ s.channel rank
        = (List.range' (s.received rank) (s.ordered_next rank - s.received rank)).map
            (query_id num_points)
  qid_eq : 1 < s.i → s.qid = query_id num_points s.q
  lines_eq : s.lines = (List.range s.q).map (query_id num_points)
  finished_nodup : ∀ rank, (s.finished rank).Nodup
  finished_lt : ∀ rank, ∀ q ∈ s.finished rank, q < queries
  finished_returns : ∀ rank, ∀ q ∈ s.finished rank, returns rank q = true
  sent_returns : ∀ rank q, q < s.ordered_next rank → returns rank q = true

/-- The number of steps taken to reach a state: the searches finished and the ordered sections
run by the workers, and the passes of the two loops of the coordinator. -/
def Pool.progress (size : Nat) (s : Pool) : Nat :=
  ∑ rank in Finset.Ico 1 size, (s.finished rank).length
    + ∑ rank in Finset.Ico 1 size, s.ordered_next rank + s.q * size + s.i

/-- A schedule for 2 workers and 2 queries in which every search finishes out of order: both
workers finish query 1 before query 0, and worker 2 runs ahead of worker 1. -/
def out_of_order_schedule : List Event :=
  [.search_done 2 1, .search_done 2 0, .ordered_section 2, .ordered_section 2,
   .search_done 1 1, .search_done 1 0, .ordered_section 1, .receive, .receive, .emit,
   .ordered_section 1, .receive, .receive, .emit]

/-- The state after `out_of_order_schedule` with `num_points = 100`. -/
def out_of_order_final : Pool :=
  (Pool.run (fun _ _ => true) 100 3 2 out_of_order_schedule).getD Pool.init

/-! ## Concrete inputs -/

/-- An index point of dimension 8 at `5` on axis 0, id 1. -/
def far_point : Point ℤ := ⟨8, 1, [5, 0, 0, 0, 0, 0, 0, 0]⟩

/-- An index point of dimension 8 at `1` on axis 0, id 2. -/
def low_point : Point ℤ := ⟨8, 2, [1, 0, 0, 0, 0, 0, 0, 0]⟩

/-- A query of dimension 8 at `6` on axis 0. -/
def query_six : Point ℤ := ⟨8, 2, [6, 0, 0, 0, 0, 0, 0, 0]⟩

/-- The array `x` of a run with `dim = 8` and `num_points = 3`: index points at `0`, `9` and `5`
on axis 0, followed by the ten queries, all at `6` on axis 0. -/
def x_three : List ℤ :=
  [0, 0, 0, 0, 0, 0, 0, 0] ++ [9, 0, 0, 0, 0, 0, 0, 0] ++ [5, 0, 0, 0, 0, 0, 0, 0]
    ++ (List.replicate 10 [6, 0, 0, 0, 0, 0, 0, 0]).flatten

/-- An index point of dimension 8 at the origin, id 3. -/
def origin_point : Point ℤ := ⟨8, 3, [0, 0, 0, 0, 0, 0, 0, 0]⟩

/-- The array `x` of a run with `dim = 8` and `num_points = 1`: the index point at `5` on
axis 0, followed by the ten queries, all at `6` on axis 0. -/
def x_one : List ℤ :=
  [5, 0, 0, 0, 0, 0, 0, 0] ++ (List.replicate 10 [6, 0, 0, 0, 0, 0, 0, 0]).flatten

/-- The array `x` of a run with `dim = 8` and `num_points = 1`: the index point at `10^20` on
axis 0, followed by the ten queries, all at the origin. -/
def x_big : List ℤ :=
  [100000000000000000000, 0, 0, 0, 0, 0, 0, 0]
    ++ (List.replicate 10 [0, 0, 0, 0, 0, 0, 0, 0]).flatten

/-- The start of the array `x` of a run with `dim = 4`: the index point at position 0 is the
origin, the index point at position 1 is at `3` on axis 0. -/
def x_four : List ℤ := [0, 0, 0, 0, 3, 0, 0, 0, 0, 0, 0, 0, 0, 0, 0, 0]

/-- A k-d ordered tree: the point at 5 on axis 0 at the root, the point at 1 on its left. -/
def ordered_tree : Node ℤ := .mk far_point (.mk low_point .nullptr .nullptr) .nullptr

/-- A tree that is not k-d ordered: the point at 1 at the root, the point at 5 on its left. -/
def unordered_tree : Node ℤ := .mk low_point (.mk far_point .nullptr .nullptr) .nullptr

/-- Two points of dimension 8 for the witness of C4. -/
def w_a : Point ℤ := ⟨8, 1, [1, 2, 3, 4, 5, 6, 7, 8]⟩

/-- The second point. -/
def w_b : Point ℤ := ⟨8, 2, [8, 7, 6, 5, 4, 3, 2, 1]⟩


/-! ## Theorems -/

section Proofs

variable {α : Type} [LinearOrderedCommRing α]

theorem scalar_sum_of_squares_eq_sum (a b : Point α) (d : Nat) :
    scalar_sum_of_squares a b d = ∑ j in Finset.range d, sq_diff a b j := by
  unfold scalar_sum_of_squares
  induction d with
  | zero => simp
  | succ d ih =>
    rw [List.range_succ, List.foldl_append, ih, Finset.sum_range_succ]
    simp [sq_diff]

theorem horizontal_sum_eq (ps : M256 α) :
    horizontal_sum ps = ps 0 + ps 1 + ps 2 + ps 3 + ps 4 + ps 5 + ps 6 + ps 7 := by
  have h : horizontal_sum ps = 0 + ps 0 + ps 1 + ps 2 + ps 3 + ps 4 + ps 5 + ps 6 + ps 7 := rfl
  rw [h, zero_add]

/-- After `r` further passes from offset `8 * m`, lane `k` has gained the squared differences on
the axes `8 * (m + j) + k`, `j < r`; here `r` is the number of passes the loop guard allows. -/
theorem simd_loop_lane (a b : Point α) (k : Fin 8) :
    ∀ (r fuel m : Nat) (ps : M256 α), r ≤ fuel → a.dimension = 8 * (m + r) →
      simd_loop a b fuel (8 * m) ps k
        = ps k + ∑ j in Finset.range r, sq_diff a b (8 * (m + j) + k.val) := by
  intro r
  induction r with
  | zero =>
    intro fuel m ps _ hd
    cases fuel with
    | zero => simp [simd_loop]
    | succ f => simp [simd_loop, hd]
  | succ r ih =>
    intro fuel m ps hf hd
    cases fuel with
    | zero => omega
    | succ f =>
      have hlt : 8 * m < a.dimension := by omega
      have hd' : a.dimension = 8 * ((m + 1) + r) := by omega
      have hstep : 8 * m + 8 = 8 * (m + 1) := by ring
      rw [simd_loop, if_pos hlt, hstep, ih f (m + 1) _ (by omega) hd', Finset.sum_range_succ']
      have hidx : ∀ j, 8 * (m + 1 + j) + k.val = 8 * (m + (j + 1)) + k.val := by
        intro j; ring
      simp only [hidx, simd_body, sq_diff, Nat.add_zero]
      ring

/-- The bound on the number of passes of the loop of line 33 does not matter once it lets the
loop guard become false. -/
theorem simd_loop_fuel_eq (a b : Point α) :
    ∀ (f1 f2 i : Nat) (ps : M256 α), a.dimension ≤ i + 8 * f1 → a.dimension ≤ i + 8 * f2 →
      simd_loop a b f1 i ps = simd_loop a b f2 i ps := by
  intro f1
  induction f1 with
  | zero =>
    intro f2 i ps h1 _
    cases f2 with
    | zero => rfl
    | succ f2 => rw [simd_loop, simd_loop, if_neg (by omega)]
  | succ f1 ih =>
    intro f2 i ps h1 h2
    by_cases hlt : i < a.dimension
    · cases f2 with
      | zero => omega
      | succ f2 =>
        rw [simd_loop, simd_loop, if_pos hlt, if_pos hlt]
        exact ih f2 (i + 8) _ (by omega) (by omega)
    · rw [simd_loop, if_neg hlt]
      cases f2 with
      | zero => rfl
      | succ f2 => rw [simd_loop, if_neg hlt]

theorem sum_range_eight_mul (f : Nat → α) (n : Nat) :
    ∑ j in Finset.range (8 * n), f j
      = ∑ j in Finset.range n, f (8 * j + 0) + ∑ j in Finset.range n, f (8 * j + 1)
        + ∑ j in Finset.range n, f (8 * j + 2) + ∑ j in Finset.range n, f (8 * j + 3)
        + ∑ j in Finset.range n, f (8 * j + 4) + ∑ j in Finset.range n, f (8 * j + 5)
        + ∑ j in Finset.range n, f (8 * j + 6) + ∑ j in Finset.range n, f (8 * j + 7) := by
  induction n with
  | zero => simp
  | succ n ih =>
    have h8 : 8 * (n + 1) = 8 * n + 1 + 1 + 1 + 1 + 1 + 1 + 1 + 1 := by ring
    rw [h8]
    simp only [Finset.sum_range_succ, ih]
    have e1 : 8 * n + 1 + 1 = 8 * n + 2 := by ring
    have e2 : 8 * n + 2 + 1 = 8 * n + 3 := by ring
    have e3 : 8 * n + 3 + 1 = 8 * n + 4 := by ring
    have e4 : 8 * n + 4 + 1 = 8 * n + 5 := by ring
    have e5 : 8 * n + 5 + 1 = 8 * n + 6 := by ring
    have e6 : 8 * n + 6 + 1 = 8 * n + 7 := by ring
    simp only [e1, e2, e3, e4, e5, e6, Nat.add_zero]
    ring

/-- C4: for two points of equal dimension `d`, `d` a multiple of 8, `distance_squared` returns
the scalar sum over the `d` axes of the squared coordinate differences: the lane-wise
accumulation followed by the horizontal sum of the eight lanes equals the scalar reference. -/
theorem distance_squared_eq_scalar_sum (a b : Point α) (hdim : a.dimension = b.dimension)
    (h8 : 8 ∣ a.dimension) :
    a.distance_squared b = .ok (scalar_sum_of_squares a b a.dimension) := by
  obtain ⟨n, hn⟩ := h8
  have hlane : ∀ k : Fin 8, simd_loop a b a.dimension 0 (fun _ => 0) k
      = ∑ j in Finset.range n, sq_diff a b (8 * j + k.val) := by
    intro k
    have h := simd_loop_lane a b k n a.dimension 0 (fun _ => 0) (by omega) (by omega)
    simpa using h
  unfold Point.distance_squared
  rw [if_neg (by simpa using hdim), horizontal_sum_eq, scalar_sum_of_squares_eq_sum, hn,
    sum_range_eight_mul]
  rw [← hn]
  simp only [hlane]
  rfl

/-- Witness of C4 at two points of dimension 8. -/
theorem distance_squared_eq_scalar_sum_witness :
    w_a.dimension = w_b.dimension ∧ 8 ∣ w_a.dimension ∧
      w_a.distance_squared w_b = .ok (scalar_sum_of_squares w_a w_b w_a.dimension) :=
  ⟨by decide, by decide, distance_squared_eq_scalar_sum w_a w_b (by decide) (by decide)⟩

/-- C8: `distance_squared` ends in the fatal error (message printed, exit status 1) exactly when
the dimensions of the two points differ, and it returns a distance exactly when they are
equal. -/
theorem distance_squared_fails_iff (a b : Point α) :
    (a.distance_squared b = .error (.exited 1 dimension_message)
        ↔ a.dimension ≠ b.dimension)
      ∧ ((∃ dist, a.distance_squared b = .ok dist) ↔ a.dimension = b.dimension) := by
  unfold Point.distance_squared
  by_cases h : a.dimension = b.dimension
  · simp [h]
  · simp [h]

/-! ### build_tree -/

theorem std_sort_length {β : Type} (less : β → β → Bool) (l : List β) :
    (std_sort less l).length = l.length := by
  unfold std_sort
  exact List.length_insertionSort _ l

theorem sorted_slice_length (l : List (Point α)) (axis : Nat) :
    (sorted_slice l axis).length = l.length := by
  simp only [sorted_slice, List.length_append, std_sort_length, List.length_take,
    List.length_drop]
  omega

theorem std_sort_perm {β : Type} (less : β → β → Bool) (l : List β) :
    (std_sort less l).Perm l := by
  unfold std_sort
  exact List.perm_insertionSort _ l

theorem sorted_slice_perm (l : List (Point α)) (axis : Nat) :
    (sorted_slice l axis).Perm l := by
  have h := (std_sort_perm (fun a b => Point.compare a b axis)
    (l.take (l.length - 1))).append_right (l.drop (l.length - 1))
  rw [List.take_append_drop] at h
  exact h

/-- One level of `build_tree_rec` on a slice of at least two points of positive dimension: the
node holds the element at index `n / 2` of the slice as left by the sort, its children are built
from the `n / 2` elements before it and from the `n - n / 2 - 1` elements after it. -/
theorem build_tree_rec_fuel_step (fuel : Nat) (p0 p1 : Point α) (rest : List (Point α))
    (depth : Nat) (hdim : 0 < p0.dimension) :
    ∃ median right_points,
      (sorted_slice (p0 :: p1 :: rest) (depth % p0.dimension)).drop
          ((p0 :: p1 :: rest).length / 2) = median :: right_points
      ∧ build_tree_rec_fuel (fuel + 1) (p0 :: p1 :: rest) depth
        = join_children median
            (build_tree_rec_fuel fuel
              ((sorted_slice (p0 :: p1 :: rest) (depth % p0.dimension)).take
                ((p0 :: p1 :: rest).length / 2)) (depth + 1))
            (build_tree_rec_fuel fuel
              (right_points.take
                ((p0 :: p1 :: rest).length - (p0 :: p1 :: rest).length / 2 - 1)) (depth + 1)) := by
  have hlen := sorted_slice_length (p0 :: p1 :: rest) (depth % p0.dimension)
  cases hd : (sorted_slice (p0 :: p1 :: rest) (depth % p0.dimension)).drop
      ((p0 :: p1 :: rest).length / 2) with
  | nil =>
    have h := congrArg List.length hd
    simp only [List.length_drop, hlen, List.length_cons, List.length_nil] at h
    omega
  | cons median right_points =>
    refine ⟨median, right_points, rfl, ?_⟩
    have hne : p0.dimension ≠ 0 := by omega
    simp only [build_tree_rec_fuel, hd, if_neg hne]

/-- On points of positive dimension `build_tree_rec` returns a tree, with one node per point
and the split sizes of the spec, whenever the bound on the recursion is at least the number
of points. -/
theorem build_tree_rec_fuel_size :
    ∀ (fuel : Nat) (l : List (Point α)) (depth : Nat), l.length ≤ fuel →
      (∀ p ∈ l, 0 < p.dimension) →
      ∃ t, build_tree_rec_fuel fuel l depth = .ok t ∧ t.size = l.length ∧ t.split_sizes := by
  intro fuel
  induction fuel with
  | zero =>
    intro l depth h _
    have : l = [] := List.eq_nil_of_length_eq_zero (by omega)
    subst this
    exact ⟨.nullptr, rfl, rfl, trivial⟩
  | succ fuel ih =>
    intro l depth h hpos
    match l, h, hpos with
    | [], _, _ => exact ⟨.nullptr, rfl, rfl, trivial⟩
    | [p], _, _ =>
      exact ⟨.mk p .nullptr .nullptr, rfl, rfl, by simp [Node.size, Node.split_sizes]⟩
    | p0 :: p1 :: rest, h, hpos =>
      obtain ⟨median, right_points, hd, hb⟩ :=
        build_tree_rec_fuel_step fuel p0 p1 rest depth (hpos p0 (List.mem_cons_self _ _))
      have hlen := sorted_slice_length (p0 :: p1 :: rest) (depth % p0.dimension)
      have hperm := sorted_slice_perm (p0 :: p1 :: rest) (depth % p0.dimension)
      have hr := congrArg List.length hd
      simp only [List.length_drop, hlen, List.length_cons] at hr h
      obtain ⟨tl, hl, hls, hlsp⟩ := ih ((sorted_slice (p0 :: p1 :: rest)
        (depth % p0.dimension)).take ((p0 :: p1 :: rest).length / 2)) (depth + 1)
        (by simp only [List.length_take, hlen, List.length_cons]; omega)
        (fun p hp => hpos p (hperm.subset (List.mem_of_mem_take hp)))
      obtain ⟨tr, hrr, hrs, hrsp⟩ := ih (right_points.take
        ((p0 :: p1 :: rest).length - (p0 :: p1 :: rest).length / 2 - 1)) (depth + 1)
        (by simp only [List.length_take, List.length_cons]; omega)
        (fun p hp => hpos p (hperm.subset (List.mem_of_mem_drop
          (hd ▸ List.mem_cons_of_mem _ (List.mem_of_mem_take hp)))))
      refine ⟨.mk median tl tr, ?_, ?_, ?_⟩
      · rw [hb, hl, hrr]
        rfl
      · simp only [List.length_take, hlen, List.length_cons] at hls hrs
        simp only [Node.size, hls, hrs, List.length_cons]
        omega
      · simp only [List.length_take, hlen, List.length_cons] at hls hrs
        simp only [Node.size, Node.split_sizes, hls, hrs]
        refine ⟨by omega, by omega, hlsp, hrsp⟩

/-- The bound on the recursion does not matter once it is at least the number of points. -/
theorem build_tree_rec_fuel_eq :
    ∀ (fuel : Nat) (l : List (Point α)) (depth : Nat), l.length ≤ fuel →
      build_tree_rec_fuel fuel l depth = build_tree_rec l depth := by
  intro fuel
  induction fuel using Nat.strong_induction_on with
  | _ fuel ih =>
    intro l depth h
    unfold build_tree_rec
    match l, h with
    | [], _ => cases fuel <;> rfl
    | [p], h =>
      cases fuel with
      | zero => simp at h
      | succ f => rfl
    | p0 :: p1 :: rest, h =>
      cases fuel with
      | zero => simp at h
      | succ f =>
        by_cases hdim : p0.dimension = 0
        · simp only [build_tree_rec_fuel, List.length_cons, hdim, if_true]
        · obtain ⟨m1, r1, hd1, hb1⟩ :=
            build_tree_rec_fuel_step f p0 p1 rest depth (by omega)
          obtain ⟨m2, r2, hd2, hb2⟩ :=
            build_tree_rec_fuel_step (rest.length + 1) p0 p1 rest depth (by omega)
          rw [hd1] at hd2
          injection hd2 with hm hr
          subst hm hr
          have hlen := sorted_slice_length (p0 :: p1 :: rest) (depth % p0.dimension)
          have hrl := congrArg List.length hd1
          simp only [List.length_drop, hlen, List.length_cons] at hrl h
          have e : (p0 :: p1 :: rest).length = rest.length + 1 + 1 := rfl
          rw [e, hb2, hb1]
          have hf : f < f + 1 := Nat.lt_succ_self f
          have hf2 : rest.length + 1 ≤ f := by omega
          congr 1
          · rw [ih f hf _ _ (by simp only [List.length_take, hlen, List.length_cons]; omega)]
            by_cases hlt : rest.length + 1 < f + 1
            · rw [ih (rest.length + 1) hlt _ _
                (by simp only [List.length_take, hlen, List.length_cons]; omega)]
            · have : f = rest.length + 1 := by omega
              subst this
              rw [ih (rest.length + 1) hf _ _
                (by simp only [List.length_take, hlen, List.length_cons]; omega)]
          · rw [ih f hf _ _ (by simp only [List.length_take, List.length_cons]; omega)]
            by_cases hlt : rest.length + 1 < f + 1
            · rw [ih (rest.length + 1) hlt _ _
                (by simp only [List.length_take, List.length_cons]; omega)]
            · have : f = rest.length + 1 := by omega
              subst this
              rw [ih (rest.length + 1) hf _ _
                (by simp only [List.length_take, List.length_cons]; omega)]

/-- C5: `build_tree` returns the empty tree for the empty list and a leaf for one point; for
every list of points (of positive dimension) it returns a tree with as many nodes as the list
has points in which every node, root of `n` points, has `n / 2` points in its left subtree and
`n - n / 2 - 1` in its right subtree. -/
theorem build_tree_split_sizes :
    build_tree ([] : List (Point α)) = .ok .nullptr
      ∧ (∀ p : Point α, build_tree [p] = .ok (.mk p .nullptr .nullptr))
      ∧ ∀ l : List (Point α), (∀ p ∈ l, 0 < p.dimension) →
          ∃ t, build_tree l = .ok t ∧ t.size = l.length ∧ t.split_sizes :=
  ⟨rfl, fun _ => rfl, fun l h => build_tree_rec_fuel_size l.length l 0 (Nat.le_refl _) h⟩

/-- Witness of C5 for three points of dimension 8. -/
theorem build_tree_split_sizes_witness :
    (∀ p ∈ [far_point, low_point, w_a], 0 < p.dimension)
      ∧ ∃ t, build_tree [far_point, low_point, w_a] = .ok t
          ∧ t.size = [far_point, low_point, w_a].length ∧ t.split_sizes :=
  ⟨by decide, (@build_tree_split_sizes ℤ _).2.2 [far_point, low_point, w_a] (by decide)⟩

/-- C6, evaluated: for the two points `far_point` (5 on axis 0) and `low_point` (1 on axis 0)
the sort of line 79 covers one element only, the root is `low_point` and `far_point` is its left
child, above the root on axis 0: the tree of `build_tree` is not k-d ordered. -/
theorem build_tree_not_ordered :
    build_tree [far_point, low_point]
        = .ok (.mk low_point (.mk far_point .nullptr .nullptr) .nullptr)
      ∧ ¬ (Node.mk low_point (.mk far_point .nullptr .nullptr) .nullptr).ordered 8 0 := by
  decide

/-- C1, evaluated: on the tree built from `far_point` and `low_point`, the query at 6 gets the
root `low_point` (id 2, squared distance 25), and the far child is pruned, while the linear scan
finds `far_point` (id 1) at squared distance 1. -/
theorem nearest_neighbor_misses_nearest :
    build_tree [far_point, low_point]
        = .ok (.mk low_point (.mk far_point .nullptr .nullptr) .nullptr)
      ∧ nearest_neighbor (.mk low_point (.mk far_point .nullptr .nullptr) .nullptr) query_six
        = .ok (.mk low_point (.mk far_point .nullptr .nullptr) .nullptr)
      ∧ low_point.distance_squared query_six = .ok 25
      ∧ linear_scan query_six [far_point, low_point] = some (far_point, 1) := by
  decide

/-- C3, evaluated: with 3 index points and 2 workers (`size = 3`) the chunk size is 1, the
ranges sent are `[0, 1)` and `[1, 2)`, and index 2 lies in none of them. -/
theorem coordinator_ranges_miss_index :
    chunk_size 3 3 = .ok 1
      ∧ coordinator_ranges 3 3 1 = [(0, 1), (1, 2)]
      ∧ ∀ r ∈ coordinator_ranges 3 3 1, ¬ (r.1 ≤ 2 ∧ 2 < r.2) := by
  decide

/-- C2, evaluated: with 3 index points and 2 workers, whatever `Point::distance` is, the global
minimum for query 0 is the minimum of `FLT_MAX` and the distances to the index points 0 and 1;
with the squared distance it is 9, while the linear scan over the 3 index points finds index
point 2 at squared distance 1. -/
theorem global_min_dist_misses_point :
    (∀ distance : Point ℤ → Point ℤ → ℤ,
        global_min_dist distance 8 3 3 x_three 0
          = .ok (min (min FLT_MAX
              (distance (query_point 8 3 x_three 0) (index_point 8 x_three 0)))
              (distance (query_point 8 3 x_three 0) (index_point 8 x_three 1))))
      ∧ global_min_dist (fun a b => scalar_sum_of_squares a b 8) 8 3 3 x_three 0 = .ok 9
      ∧ linear_scan (query_point 8 3 x_three 0) (worker_points 8 x_three 0 3)
          = some (index_point 8 x_three 2, 1) := by
  refine ⟨fun distance => ?_, by decide, by decide⟩
  rfl

/-! ### The reduction -/

theorem foldl_min_le_init (c : α) (ls : List α) : ls.foldl min c ≤ c := by
  induction ls generalizing c with
  | nil => exact le_refl c
  | cons l ls ih => exact le_trans (ih (min c l)) (min_le_left c l)

theorem foldl_min_le_of_mem (c : α) (ls : List α) : ∀ l ∈ ls, ls.foldl min c ≤ l := by
  induction ls generalizing c with
  | nil => intro l hl; cases hl
  | cons l' ls ih =>
    intro l hl
    rcases List.mem_cons.mp hl with h | h
    · subst h
      exact le_trans (foldl_min_le_init (min c l) ls) (min_le_right c l)
    · exact ih (min c l') l h

theorem foldl_min_mem (c : α) (ls : List α) : ls.foldl min c = c ∨ ls.foldl min c ∈ ls := by
  induction ls generalizing c with
  | nil => exact Or.inl rfl
  | cons l ls ih =>
    rcases ih (min c l) with h | h
    · rcases min_choice c l with hc | hc
      · left; simp only [List.foldl_cons]; rw [h, hc]
      · right; simp only [List.foldl_cons]; rw [h, hc]; exact List.mem_cons_self _ _
    · right; exact List.mem_cons_of_mem _ h

/-- The fold of the reduction: when one of the contributions `l_1 .. l_N` of the workers is at
most `FLT_MAX`, the minimum of `FLT_MAX` and the `l_i` is the minimum of the `l_i`. -/
theorem mpi_reduce_min_of_finite (ls : List α) (hfin : ∃ l ∈ ls, l ≤ FLT_MAX) :
    mpi_reduce_min FLT_MAX ls ∈ ls ∧ ∀ l ∈ ls, mpi_reduce_min FLT_MAX ls ≤ l := by
  unfold mpi_reduce_min
  refine ⟨?_, foldl_min_le_of_mem FLT_MAX ls⟩
  rcases foldl_min_mem (FLT_MAX : α) ls with h | h
  · obtain ⟨l, hl, hle⟩ := hfin
    have h1 : ls.foldl min FLT_MAX ≤ l := foldl_min_le_of_mem FLT_MAX ls l hl
    have h3 : l ≤ ls.foldl min FLT_MAX := by rw [h]; exact hle
    have h2 : l = ls.foldl min FLT_MAX := le_antisymm h3 h1
    exact h2 ▸ hl
  · exact h

/-- C7, counterexample: one worker, one index point at `10^20` on axis 0, query 0 at the
origin. The local best (squared) distance of the worker is `10^40`, above `FLT_MAX` (as a
`float` the square overflows to `+inf`, and so does its root); the reduction returns the
`FLT_MAX` of rank 0, which is not the minimum of the local best distances. -/
theorem global_min_dist_is_flt_max :
    chunk_size 1 2 = .ok 1
      ∧ collect (worker_session (fun a b => scalar_sum_of_squares a b 8) 8 1 x_big 1 0)
          (coordinator_ranges 1 2 1)
        = .ok [10000000000000000000000000000000000000000]
      ∧ global_min_dist (fun a b => scalar_sum_of_squares a b 8) 8 1 2 x_big 0
        = .ok FLT_MAX
      ∧ (FLT_MAX : ℤ) ∉ [(10000000000000000000000000000000000000000 : ℤ)] := by
  decide

/-- C7, amended: for every query, when the workers `1 .. size-1` return the local best
distances `ls` and at least one of them is at most `FLT_MAX` (a finite `float`), the value of
`global_min_dist` after the min-reduction, in which rank 0 contributes `FLT_MAX`, is the minimum
of `ls`: one of the local best distances, and not above any of them. -/
theorem global_min_dist_eq_min (distance : Point α → Point α → α) (dim num_points size : Nat)
    (x : List α) (q chunk : Nat) (ls : List α)
    (hchunk : chunk_size num_points size = .ok chunk)
    (hls : collect (worker_session distance dim num_points x chunk q)
      (coordinator_ranges num_points size chunk) = .ok ls)
    (hfin : ∃ l ∈ ls, l ≤ FLT_MAX) :
    ∃ g, global_min_dist distance dim num_points size x q = .ok g
      ∧ g = mpi_reduce_min FLT_MAX ls ∧ g ∈ ls ∧ ∀ l ∈ ls, g ≤ l := by
  refine ⟨mpi_reduce_min FLT_MAX ls, ?_, rfl, mpi_reduce_min_of_finite ls hfin⟩
  simp only [global_min_dist, hchunk, hls]

/-- Witness of C7, amended: 3 index points, 2 workers, local best (squared) distances 36 and 9
for query 0. -/
theorem global_min_dist_eq_min_witness :
    chunk_size 3 3 = .ok 1
      ∧ collect (worker_session (fun a b => scalar_sum_of_squares a b 8) 8 3 x_three 1 0)
          (coordinator_ranges 3 3 1) = .ok [36, 9]
      ∧ (∃ l ∈ ([36, 9] : List ℤ), l ≤ FLT_MAX)
      ∧ ∃ g, global_min_dist (fun a b => scalar_sum_of_squares a b 8) 8 3 3 x_three 0 = .ok g
          ∧ g = mpi_reduce_min FLT_MAX [36, 9] ∧ g ∈ ([36, 9] : List ℤ)
          ∧ ∀ l ∈ ([36, 9] : List ℤ), g ≤ l :=
  ⟨by decide, by decide, by decide,
    global_min_dist_eq_min (fun a b => scalar_sum_of_squares a b 8) 8 3 3 x_three 0 1 [36, 9]
      (by decide) (by decide) (by decide)⟩

end Proofs

/-- C9, evaluated: in a run with `M + 1` index points, the index point at the last position `M`
and the query 0 both get the id `M + 1`. -/
theorem index_id_eq_query_id {β : Type} (dim M : Nat) (x : List β) :
    (index_point dim x M).ID = (M : Int) + 1
      ∧ (query_point dim (M + 1) x 0).ID = (M : Int) + 1 := by
  simp [index_point, query_point, query_id]

/-! ### The per-query message protocol -/

theorem Pool.inv_init (returns : Nat → Nat → Bool) (num_points size queries : Nat) (hsize : 1 ≤ size) :
    Pool.inv returns num_points size queries Pool.init := by
  refine ⟨Nat.zero_le _, le_refl _, hsize, ?_, ?_, rfl, ?_, ?_, ?_, ?_⟩
  rotate_left 2
  · intro rank
    exact List.nodup_nil
  · intro rank q hq
    cases hq
  · intro rank q hq
    cases hq
  · intro rank q hq
    simp [Pool.init] at hq
  · intro rank h1 _
    have hr : Pool.init.received rank = 0 := by
      simp only [Pool.received, Pool.init]
      rw [if_neg (by omega)]
    rw [hr]
    simp [Pool.init]
  · intro h
    simp [Pool.init] at h

theorem map_range'_eq_cons {f : Nat → Int} {a n : Nat} {message : Int} {rest : List Int}
    (h : (List.range' a n).map f = message :: rest) :
    1 ≤ n ∧ message = f a ∧ rest = (List.range' (a + 1) (n - 1)).map f := by
  cases n with
  | zero => simp at h
  | succ n =>
    rw [List.range'_succ, List.map_cons] at h
    injection h with h1 h2
    exact ⟨by omega, h1.symm, by simpa using h2.symm⟩

theorem Pool.inv_step (returns : Nat → Nat → Bool) (num_points size queries : Nat) (hsize : 2 ≤ size) (s t : Pool)
    (e : Event) (hinv : Pool.inv returns num_points size queries s)
    (hstep : Pool.step returns num_points size queries s e = some t) :
    Pool.inv returns num_points size queries t := by
  cases e with
  | search_done rank q =>
    simp only [Pool.step] at hstep
    split at hstep
    · injection hstep with hstep
      subst hstep
      rename_i hg
      refine ⟨hinv.q_le, hinv.i_pos, hinv.i_le, hinv.sent, hinv.qid_eq, hinv.lines_eq, ?_, ?_,
        ?_, hinv.sent_returns⟩
      · intro r
        by_cases hr : r = rank
        · subst hr
          simp only [Function.update_same]
          exact List.nodup_cons.mpr ⟨hg.2.2.2.2, hinv.finished_nodup r⟩
        · simp only [Function.update_noteq hr]
          exact hinv.finished_nodup r
      · intro r q' hq'
        by_cases hr : r = rank
        · subst hr
          simp only [Function.update_same] at hq'
          rcases List.mem_cons.mp hq' with h | h
          · exact h ▸ hg.2.2.1
          · exact hinv.finished_lt r q' h
        · simp only [Function.update_noteq hr] at hq'
          exact hinv.finished_lt r q' hq'
      · intro r q' hq'
        by_cases hr : r = rank
        · subst hr
          simp only [Function.update_same] at hq'
          rcases List.mem_cons.mp hq' with h | h
          · exact h ▸ hg.2.2.2.1
          · exact hinv.finished_returns r q' h
        · simp only [Function.update_noteq hr] at hq'
          exact hinv.finished_returns r q' hq'
    · cases hstep
  | ordered_section rank =>
    simp only [Pool.step] at hstep
    split at hstep
    · rename_i hg
      injection hstep with hstep
      subst hstep
      refine ⟨hinv.q_le, hinv.i_pos, hinv.i_le, ?_, hinv.qid_eq, hinv.lines_eq,
        hinv.finished_nodup, hinv.finished_lt, hinv.finished_returns, ?_⟩
      rotate_left
      · intro r q' hq'
        by_cases hr : r = rank
        · subst hr
          simp only [Function.update_same] at hq'
          by_cases hlt : q' < s.ordered_next r
          · exact hinv.sent_returns r q' hlt
          · have hq : q' = s.ordered_next r := by omega
            rw [hq]
            exact hinv.finished_returns r _ hg.2.2.2
        · simp only [Function.update_noteq hr] at hq'
          exact hinv.sent_returns r q' hq'
      intro r h1 h2
      obtain ⟨ha, hb, hc⟩ := hinv.sent r h1 h2
      by_cases hr : r = rank
      · subst hr
        simp only [Function.update_same, Pool.received] at ha hb hc ⊢
        refine ⟨by omega, by omega, ?_⟩
        rw [hc]
        have hn : s.ordered_next r + 1 - (s.q + if r < s.i then 1 else 0)
            = (s.ordered_next r - (s.q + if r < s.i then 1 else 0)) + 1 := by omega
        rw [hn, List.range'_1_concat, List.map_append, List.map_singleton]
        congr 3
        omega
      · simp only [Function.update_noteq hr, Pool.received] at ha hb hc ⊢
        exact ⟨ha, hb, hc⟩
    · cases hstep
  | receive =>
    simp only [Pool.step] at hstep
    split at hstep
    · rename_i hg
      have hi1 : 1 ≤ s.i := hinv.i_pos
      obtain ⟨ha, hb, hc⟩ := hinv.sent s.i hi1 hg.2
      have hrec : s.received s.i = s.q := by simp [Pool.received]
      rw [hrec] at ha hc
      cases hch : s.channel s.i with
      | nil => rw [hch] at hstep; cases hstep
      | cons message rest =>
        rw [hch] at hstep hc
        injection hstep with hstep
        subst hstep
        obtain ⟨hn, hm, hrest⟩ := map_range'_eq_cons hc.symm
        refine ⟨hinv.q_le, by simp, by simp; omega, ?_, ?_, hinv.lines_eq,
          hinv.finished_nodup, hinv.finished_lt, hinv.finished_returns, hinv.sent_returns⟩
        · intro r h1 h2
          by_cases hr : r = s.i
          · subst hr
            simp only [Function.update_same, Pool.received]
            rw [if_pos (by omega)]
            refine ⟨by omega, hb, ?_⟩
            rw [hrest, Nat.sub_sub]
          · obtain ⟨ha', hb', hc'⟩ := hinv.sent r h1 h2
            simp only [Function.update_noteq hr, Pool.received] at ha' hb' hc' ⊢
            have hiff : (r < s.i + 1) ↔ (r < s.i) := by omega
            simp only [hiff]
            exact ⟨ha', hb', hc'⟩
        · intro _
          exact hm
    · cases hstep
  | emit =>
    simp only [Pool.step] at hstep
    split at hstep
    · rename_i hg
      injection hstep with hstep
      subst hstep
      have hi : s.i = size := le_antisymm hinv.i_le (by omega)
      have hqid : s.qid = query_id num_points s.q := hinv.qid_eq (by omega)
      refine ⟨by simp; omega, by simp, by simp; omega, ?_, by simp, ?_,
        hinv.finished_nodup, hinv.finished_lt, hinv.finished_returns, hinv.sent_returns⟩
      · intro r h1 h2
        obtain ⟨ha, hb, hc⟩ := hinv.sent r h1 h2
        simp only [Pool.received] at ha hb hc ⊢
        rw [if_pos (by omega)] at ha hc
        rw [if_neg (by omega)]
        exact ⟨ha, hb, hc⟩
      · simp only [hinv.lines_eq, hqid, List.range_succ, List.map_append, List.map_singleton]
    · cases hstep

theorem Pool.inv_run_from (returns : Nat → Nat → Bool) (num_points size queries : Nat) (hsize : 2 ≤ size)
    (schedule : List Event) :
    ∀ s t : Pool, Pool.inv returns num_points size queries s →
      Pool.run_from returns num_points size queries s schedule = some t →
      Pool.inv returns num_points size queries t := by
  induction schedule with
  | nil =>
    intro s t hinv h
    simp only [Pool.run_from] at h
    injection h with h
    exact h ▸ hinv
  | cons e es ih =>
    intro s t hinv h
    simp only [Pool.run_from] at h
    cases hs : Pool.step returns num_points size queries s e with
    | none => rw [hs] at h; cases h
    | some u =>
      rw [hs] at h
      exact ih u t (Pool.inv_step returns num_points size queries hsize s u e hinv hs) h

/-- When the searches of every worker return, in a state of a run in which no event can happen
the coordinator has left its query loop. -/
theorem Pool.inv_stuck (returns : Nat → Nat → Bool) (num_points size queries : Nat) (s : Pool)
    (hinv : Pool.inv returns num_points size queries s)
    (hret : ∀ rank q, 1 ≤ rank → rank < size → q < queries → returns rank q = true)
    (hstuck : ∀ e, Pool.step returns num_points size queries s e = none) : s.q = queries := by
  by_contra hne
  have hq : s.q < queries := lt_of_le_of_ne hinv.q_le hne
  by_cases hi : s.i < size
  · obtain ⟨ha, hb, hc⟩ := hinv.sent s.i hinv.i_pos hi
    have hrec : s.received s.i = s.q := by simp [Pool.received]
    rw [hrec] at ha hc
    have h1 := hstuck .receive
    simp only [Pool.step, if_pos (And.intro hq hi)] at h1
    cases hch : s.channel s.i with
    | cons message rest => rw [hch] at h1; cases h1
    | nil =>
      rw [hch] at hc
      have hnext : s.ordered_next s.i = s.q := by
        cases hn : s.ordered_next s.i - s.q with
        | zero => omega
        | succ n => rw [hn, List.range'_succ] at hc; simp at hc
      have h2 := hstuck (.ordered_section s.i)
      have h3 := hstuck (.search_done s.i s.q)
      simp only [Pool.step, hnext] at h2 h3
      by_cases hmem : s.q ∈ s.finished s.i
      · rw [if_pos ⟨hinv.i_pos, hi, hq, hmem⟩] at h2
        cases h2
      · rw [if_pos ⟨hinv.i_pos, hi, hq, hret s.i s.q hinv.i_pos hi hq, hmem⟩] at h3
        cases h3
  · have h1 := hstuck .emit
    simp only [Pool.step, if_pos (And.intro hq hi)] at h1
    cases h1

theorem sum_update_add {β : Type} (S : Finset Nat) (f : Nat → β) (g : β → Nat) (a : Nat)
    (v : β) (ha : a ∈ S) :
    ∑ r in S, g (Function.update f a v r) + g (f a) = ∑ r in S, g (f r) + g v := by
  rw [← Finset.add_sum_erase S (fun r => g (Function.update f a v r)) ha,
    ← Finset.add_sum_erase S (fun r => g (f r)) ha]
  have h : ∑ r in S.erase a, g (Function.update f a v r) = ∑ r in S.erase a, g (f r) := by
    apply Finset.sum_congr rfl
    intro r hr
    rw [Function.update_noteq (Finset.ne_of_mem_erase hr)]
  simp only [Function.update_same, h]
  omega

/-- Every step adds one to the progress of the pool. -/
theorem Pool.progress_step (returns : Nat → Nat → Bool) (num_points size queries : Nat) (s t : Pool) (e : Event)
    (hinv : Pool.inv returns num_points size queries s)
    (hstep : Pool.step returns num_points size queries s e = some t) :
    t.progress size = s.progress size + 1 := by
  cases e with
  | search_done rank q =>
    simp only [Pool.step] at hstep
    split at hstep
    · rename_i hg
      injection hstep with hstep
      subst hstep
      have h := sum_update_add (Finset.Ico 1 size) s.finished List.length rank
        (q :: s.finished rank) (Finset.mem_Ico.mpr ⟨hg.1, hg.2.1⟩)
      simp only [Pool.progress, List.length_cons] at h ⊢
      omega
    · cases hstep
  | ordered_section rank =>
    simp only [Pool.step] at hstep
    split at hstep
    · rename_i hg
      injection hstep with hstep
      subst hstep
      have h := sum_update_add (Finset.Ico 1 size) s.ordered_next id rank
        (s.ordered_next rank + 1) (Finset.mem_Ico.mpr ⟨hg.1, hg.2.1⟩)
      simp only [Pool.progress, id] at h ⊢
      omega
    · cases hstep
  | receive =>
    simp only [Pool.step] at hstep
    split at hstep
    · cases hch : s.channel s.i with
      | nil => rw [hch] at hstep; cases hstep
      | cons message rest =>
        rw [hch] at hstep
        injection hstep with hstep
        subst hstep
        simp only [Pool.progress]
        omega
    · cases hstep
  | emit =>
    simp only [Pool.step] at hstep
    split at hstep
    · rename_i hg
      injection hstep with hstep
      subst hstep
      have hi : s.i = size := le_antisymm hinv.i_le (by omega)
      simp only [Pool.progress, hi, Nat.add_mul, Nat.one_mul]
      omega
    · cases hstep

theorem Pool.progress_run_from (returns : Nat → Nat → Bool) (num_points size queries : Nat) (hsize : 2 ≤ size)
    (schedule : List Event) :
    ∀ s t : Pool, Pool.inv returns num_points size queries s →
      Pool.run_from returns num_points size queries s schedule = some t →
      t.progress size = s.progress size + schedule.length := by
  induction schedule with
  | nil =>
    intro s t _ h
    simp only [Pool.run_from] at h
    injection h with h
    simp [h]
  | cons e es ih =>
    intro s t hinv h
    simp only [Pool.run_from] at h
    cases hs : Pool.step returns num_points size queries s e with
    | none => rw [hs] at h; cases h
    | some u =>
      rw [hs] at h
      rw [ih u t (Pool.inv_step returns num_points size queries hsize s u e hinv hs) h,
        Pool.progress_step returns num_points size queries s u e hinv hs, List.length_cons]
      omega

theorem nodup_length_le (l : List Nat) (n : Nat) (hnd : l.Nodup) (hlt : ∀ q ∈ l, q < n) :
    l.length ≤ n := by
  have hsub : l ⊆ List.range n := fun q hq => List.mem_range.mpr (hlt q hq)
  have h := (List.subperm_of_subset hnd hsub).length_le
  simpa using h

/-- The progress of a state of a run is bounded. -/
theorem Pool.progress_le (returns : Nat → Nat → Bool) (num_points size queries : Nat) (hsize : 2 ≤ size) (s : Pool)
    (hinv : Pool.inv returns num_points size queries s) :
    s.progress size ≤ (3 * size - 2) * queries + 1 := by
  have h1 : ∑ rank in Finset.Ico 1 size, (s.finished rank).length
      ≤ (Finset.Ico 1 size).card • queries :=
    Finset.sum_le_card_nsmul _ _ _ (fun r _ =>
      nodup_length_le _ _ (hinv.finished_nodup r) (hinv.finished_lt r))
  have h2 : ∑ rank in Finset.Ico 1 size, s.ordered_next rank
      ≤ (Finset.Ico 1 size).card • queries :=
    Finset.sum_le_card_nsmul _ _ _ (fun r hr =>
      (hinv.sent r (Finset.mem_Ico.mp hr).1 (Finset.mem_Ico.mp hr).2).2.1)
  simp only [Nat.card_Ico, smul_eq_mul] at h1 h2
  have h3 : s.q * size + s.i ≤ queries * size + 1 := by
    by_cases hq : s.q = queries
    · obtain ⟨ha, hb, _⟩ := hinv.sent 1 (le_refl 1) (by omega)
      simp only [Pool.received] at ha
      have hi : s.i ≤ 1 := by
        by_contra hc
        rw [if_pos (by omega)] at ha
        omega
      rw [hq]
      omega
    · have hlt : s.q + 1 ≤ queries := by have := hinv.q_le; omega
      have hi := hinv.i_le
      calc s.q * size + s.i ≤ s.q * size + size := by omega
        _ = (s.q + 1) * size := by ring
        _ ≤ queries * size := Nat.mul_le_mul_right size hlt
        _ ≤ queries * size + 1 := by omega
  have h4 : (3 * size - 2) * queries
      = (size - 1) * queries + (size - 1) * queries + queries * size := by
    obtain ⟨k, rfl⟩ : ∃ k, size = k + 2 := ⟨size - 2, by omega⟩
    have e1 : 3 * (k + 2) - 2 = 3 * k + 4 := by omega
    have e2 : k + 2 - 1 = k + 1 := by omega
    rw [e1, e2]
    ring
  simp only [Pool.progress]
  omega

/-- A search that does not return holds back every later line: when the search of query `q` at
a worker `rank` does not return, the coordinator never gets past query `q`. -/
theorem Pool.inv_fault (returns : Nat → Nat → Bool) (num_points size queries : Nat) (s : Pool)
    (hinv : Pool.inv returns num_points size queries s) (rank q : Nat) (h1 : 1 ≤ rank)
    (h2 : rank < size) (hfault : returns rank q = false) : s.q ≤ q := by
  obtain ⟨ha, _, _⟩ := hinv.sent rank h1 h2
  have hq : s.q ≤ s.received rank := by
    simp only [Pool.received]
    omega
  by_contra hlt
  have hret := hinv.sent_returns rank q (by omega)
  rw [hfault] at hret
  cases hret

/-- The lines of every run of the pool, for at least one worker and every schedule (every order
in which the searches of the workers and of their threads finish and in which the processes
take their steps): the lines printed so far are the lines of the queries `0 .. q-1`, one each,
in this order, where `q` is the loop variable of the coordinator; their query ids are strictly
increasing; when the searches of every worker return and no further step is possible, there is
exactly one line for each of the queries; no schedule is longer than
`(3 * size - 2) * queries` steps; and a search that does not return, for query `q0` at some
worker, leaves at most `q0` lines. -/
theorem pool_lines_in_query_order (returns : Nat → Nat → Bool) (num_points size queries : Nat)
    (hsize : 2 ≤ size) (schedule : List Event) (s : Pool)
    (hrun : Pool.run returns num_points size queries schedule = some s) :
    s.lines = (List.range s.q).map (query_id num_points)
      ∧ s.q ≤ queries
      ∧ s.lines.Pairwise (fun a b => a < b)
      ∧ ((∀ rank q, 1 ≤ rank → rank < size → q < queries → returns rank q = true) →
          (∀ e, Pool.step returns num_points size queries s e = none) →
          s.lines = (List.range queries).map (query_id num_points))
      ∧ schedule.length ≤ (3 * size - 2) * queries
      ∧ (∀ rank q0, 1 ≤ rank → rank < size → returns rank q0 = false →
          s.lines.length ≤ q0) := by
  have hinit : Pool.inv returns num_points size queries Pool.init :=
    Pool.inv_init returns num_points size queries (by omega)
  have hinv : Pool.inv returns num_points size queries s :=
    Pool.inv_run_from returns num_points size queries hsize schedule Pool.init s hinit hrun
  refine ⟨hinv.lines_eq, hinv.q_le, ?_, ?_, ?_, ?_⟩
  rotate_left 2
  · have hp := Pool.progress_run_from returns num_points size queries hsize schedule
      Pool.init s hinit hrun
    have hle := Pool.progress_le returns num_points size queries hsize s hinv
    have h0 : Pool.init.progress size = 1 := by simp [Pool.progress, Pool.init]
    omega
  · intro rank q0 h1 h2 hfault
    rw [hinv.lines_eq, List.length_map, List.length_range]
    exact Pool.inv_fault returns num_points size queries s hinv rank q0 h1 h2 hfault
  · rw [hinv.lines_eq]
    refine List.Pairwise.map (query_id num_points) ?_ (List.pairwise_lt_range s.q)
    intro a b hab
    simp only [query_id]
    omega
  · intro hret hstuck
    rw [hinv.lines_eq, Pool.inv_stuck returns num_points size queries s hinv hret hstuck]

/-- A run of 2 workers and 2 queries in which every search returns and finishes out of order:
the two lines are printed in query order. -/
theorem out_of_order_run_lines :
    Pool.run (fun _ _ => true) 100 3 2 out_of_order_schedule = some out_of_order_final
      ∧ out_of_order_final.lines = [100, 101]
      ∧ out_of_order_final.lines = (List.range 2).map (query_id 100) :=
  ⟨rfl, by decide, by decide⟩

/-- C10, evaluated: with 1 index point and 2 workers (`size = 3`) the chunk size is 0, both
workers get the range `[0, 0)` and build the null tree, and `nearest_neighbor` dereferences it
at line 173: no search returns, no worker reaches its ordered section, and for every schedule
the coordinator prints no line, while the queries are ten. -/
theorem empty_partition_no_line :
    chunk_size 1 3 = .ok 0
      ∧ coordinator_ranges 1 3 0 = [(0, 0), (0, 0)]
      ∧ worker_tree 8 x_one 0 0 0 = .ok .nullptr
      ∧ nearest_neighbor (.nullptr : Node ℤ) (query_point 8 1 x_one 0)
          = .error .null_dereference
      ∧ global_min_dist (fun a b => scalar_sum_of_squares a b 8) 8 1 3 x_one 0
          = .error .null_dereference
      ∧ ∀ schedule : List Event,
          ((Pool.run (search_returns 8 1 3 x_one) 1 3 num_queries schedule).map
            (fun s => s.lines)).getD [] = [] := by
  refine ⟨by decide, by decide, by decide, by decide, by decide, ?_⟩
  intro schedule
  cases hrun : Pool.run (search_returns 8 1 3 x_one) 1 3 num_queries schedule with
  | none => rfl
  | some s =>
    have h := (pool_lines_in_query_order (search_returns 8 1 3 x_one) 1 3 num_queries
      (by decide) schedule s hrun).2.2.2.2.2 1 0 (by decide) (by decide) (by decide)
    simp only [Option.map_some', Option.getD_some]
    exact List.eq_nil_of_length_eq_zero (by omega)

/-! ### The loop of `distance_squared` for every dimension -/

section MoreProofs

variable {α : Type} [LinearOrderedCommRing α]

/-- After the `r` passes the loop guard allows from offset `8 * m`, whatever the dimension, lane
`k` has gained the squared differences at the indices `8 * (m + j) + k`, `j < r`. -/
theorem simd_loop_lane_general (a b : Point α) (k : Fin 8) :
    ∀ (r fuel m : Nat) (ps : M256 α), r ≤ fuel → a.dimension ≤ 8 * (m + r) →
      8 * (m + r) < a.dimension + 8 →
      simd_loop a b fuel (8 * m) ps k
        = ps k + ∑ j in Finset.range r, sq_diff a b (8 * (m + j) + k.val) := by
  intro r
  induction r with
  | zero =>
    intro fuel m ps _ hd _
    cases fuel with
    | zero => simp [simd_loop]
    | succ f =>
      have hge : ¬ 8 * m < a.dimension := by omega
      simp [simd_loop, hge]
  | succ r ih =>
    intro fuel m ps hf hd hd2
    cases fuel with
    | zero => omega
    | succ f =>
      have hlt : 8 * m < a.dimension := by omega
      have hstep : 8 * m + 8 = 8 * (m + 1) := by ring
      rw [simd_loop, if_pos hlt, hstep, ih f (m + 1) _ (by omega) (by omega) (by omega),
        Finset.sum_range_succ']
      have hidx : ∀ j, 8 * (m + 1 + j) + k.val = 8 * (m + (j + 1)) + k.val := by
        intro j; ring
      simp only [hidx, simd_body, sq_diff, Nat.add_zero]
      ring

/-- For two points of equal dimension `d`, `distance_squared` returns the sum of the squared
differences of the first `lanes_read d` coordinates read through the two pointers. -/
theorem distance_squared_lanes (a b : Point α) (hdim : a.dimension = b.dimension) :
    a.distance_squared b = .ok (scalar_sum_of_squares a b (lanes_read a.dimension)) := by
  have hlane : ∀ k : Fin 8, simd_loop a b a.dimension 0 (fun _ => 0) k
      = ∑ j in Finset.range ((a.dimension + 7) / 8), sq_diff a b (8 * j + k.val) := by
    intro k
    have h := simd_loop_lane_general a b k ((a.dimension + 7) / 8) a.dimension 0 (fun _ => 0)
      (by omega) (by omega) (by omega)
    simpa using h
  unfold Point.distance_squared
  rw [if_neg (by simpa using hdim), horizontal_sum_eq, scalar_sum_of_squares_eq_sum, lanes_read,
    sum_range_eight_mul]
  simp only [hlane]
  rfl


/-- The body of `nearest` at a node, in terms of `search_branches`. -/
theorem nearest_mk (point : Point α) (left right : Node α) (query : Point α) (depth : Nat)
    (best : Node α) (best_dist : α) :
    nearest (.mk point left right) query depth best best_dist
      = if query.dimension = 0 then .error .division_by_zero
        else
          match point.distance_squared query with
          | .error e => .error e
          | .ok d_euclidian =>
            search_branches query
              ((query.coord (depth % query.dimension) - point.coord (depth % query.dimension))
                * (query.coord (depth % query.dimension) - point.coord (depth % query.dimension)))
              (if query.coord (depth % query.dimension) - point.coord (depth % query.dimension) < 0
                then nearest left query (depth + 1) else nearest right query (depth + 1))
              (if query.coord (depth % query.dimension) - point.coord (depth % query.dimension) < 0
                then nearest right query (depth + 1) else nearest left query (depth + 1))
              (if d_euclidian < best_dist then Node.mk point left right else best)
              (if d_euclidian < best_dist then d_euclidian else best_dist) := by
  simp only [nearest, search_branches]
  try rfl

theorem nearest_paired_mk (point : Point α) (left right : Node α) (query : Point α)
    (depth : Nat) (best : Node α) (best_dist : α) :
    nearest_paired (.mk point left right) query depth best best_dist
      = if query.dimension = 0 then .error .division_by_zero
        else
          match point.distance_squared query with
          | .error e => .error e
          | .ok d_euclidian =>
            search_branches_paired query
              ((query.coord (depth % query.dimension) - point.coord (depth % query.dimension))
                * (query.coord (depth % query.dimension) - point.coord (depth % query.dimension)))
              (if query.coord (depth % query.dimension) - point.coord (depth % query.dimension) < 0
                then nearest_paired left query (depth + 1)
                else nearest_paired right query (depth + 1))
              (if query.coord (depth % query.dimension) - point.coord (depth % query.dimension) < 0
                then nearest_paired right query (depth + 1)
                else nearest_paired left query (depth + 1))
              (if d_euclidian < best_dist then Node.mk point left right else best)
              (if d_euclidian < best_dist then d_euclidian else best_dist) := by
  simp only [nearest_paired, search_branches_paired]
  try rfl

/-- The far-branch update as written keeps the node the paired update keeps. -/
theorem adopt_node_eq (query : Point α) (further best_local : Node α) (best_dist_local : α) :
    (match adopt_node query further best_local best_dist_local with
      | .error e => (Except.error e : Except Fault (Node α))
      | .ok best_local => .ok best_local)
    = (match adopt query further best_local best_dist_local with
      | .error e => .error e
      | .ok (best_local, _) => .ok best_local) := by
  cases further with
  | nullptr => rfl
  | mk point left right =>
    simp only [adopt_node, adopt]
    cases point.distance_squared query with
    | error e => rfl
    | ok dist_further =>
      by_cases h : dist_further < best_dist_local
      · simp only [h, if_true]
      · simp only [h, if_false]

theorem search_branches_eq_paired (query : Point α) (d_axis_squared : α)
    (visit_branch other_branch : Node α → α → Except Fault (Node α))
    (best_local : Node α) (best_dist_local : α) :
    search_branches query d_axis_squared visit_branch other_branch best_local best_dist_local
      = search_branches_paired query d_axis_squared visit_branch other_branch best_local
          best_dist_local := by
  unfold search_branches search_branches_paired
  cases visit_branch best_local best_dist_local with
  | error e => rfl
  | ok further =>
    simp only
    cases adopt query further best_local best_dist_local with
    | error e => rfl
    | ok pair =>
      obtain ⟨b, d⟩ := pair
      simp only
      by_cases h : d_axis_squared < d
      · simp only [h, if_true]
        cases other_branch b d with
        | error e => rfl
        | ok further2 => exact adopt_node_eq query further2 b d
      · simp only [h, if_false]

/-- C19: for every tree, query, depth and incoming best pair, `nearest` returns what the
variant with line 162 (the far-branch update assigning node and distance as a pair) returns: the
same node, or the same fault. -/
theorem nearest_eq_nearest_paired (root : Node α) (query : Point α) :
    ∀ (depth : Nat) (best : Node α) (best_dist : α),
      nearest root query depth best best_dist = nearest_paired root query depth best best_dist := by
  induction root with
  | nullptr => intro depth best best_dist; rfl
  | mk point left right ihl ihr =>
    intro depth best best_dist
    have hl : nearest left query (depth + 1) = nearest_paired left query (depth + 1) := by
      funext b d; exact ihl (depth + 1) b d
    have hr : nearest right query (depth + 1) = nearest_paired right query (depth + 1) := by
      funext b d; exact ihr (depth + 1) b d
    rw [nearest_mk, nearest_paired_mk, hl, hr]
    simp only [search_branches_eq_paired]

theorem distance_squared_eq_read (p query : Point α) (h : p.dimension = query.dimension) :
    p.distance_squared query = .ok (read_distance p query) := by
  rw [distance_squared_lanes p query h, h]
  rfl

/-- The squared difference on an axis of the query is at most the distance read. -/
theorem sq_diff_le_read_distance (p query : Point α) (axis : Nat)
    (h : axis < query.dimension) : sq_diff p query axis ≤ read_distance p query := by
  unfold read_distance
  rw [scalar_sum_of_squares_eq_sum]
  have hmem : axis ∈ Finset.range (lanes_read query.dimension) := by
    simp only [Finset.mem_range, lanes_read]
    omega
  exact Finset.single_le_sum (f := fun j => sq_diff p query j)
    (fun j _ => mul_self_nonneg _) hmem

/-- The two updates after a recursive call whose result satisfies `SearchResult`. -/
theorem adopt_of_search_result (query : Point α) (child : Node α) (depth : Nat)
    (bl : Node α) (bdl : α) (r : Node α) (hb : IsBest query bl bdl)
    (hr : SearchResult query child depth bl bdl r) :
    ∃ bl' bdl', adopt query r bl bdl = .ok (bl', bdl')
      ∧ adopt_node query r bl bdl = .ok bl'
      ∧ IsBest query bl' bdl' ∧ bdl' ≤ bdl
      ∧ (bl' = bl ∨ bl' ∈ child.subnodes)
      ∧ (child.ordered query.dimension depth →
          ∀ p ∈ child.points, bdl' ≤ read_distance p query) := by
  rcases hr with ⟨hc, hrn⟩ | ⟨_, v, hv, hle, hmem, hmin⟩
  · subst hc hrn
    refine ⟨bl, bdl, rfl, rfl, hb, le_refl _, Or.inl rfl, ?_⟩
    intro _ p hp
    cases hp
  · obtain ⟨point, left, right, hreq, hdim, hveq⟩ := hv
    subst hreq
    have hd := distance_squared_eq_read point query hdim
    by_cases hlt : read_distance point query < bdl
    · refine ⟨.mk point left right, read_distance point query, ?_, ?_,
        ⟨point, left, right, rfl, hdim, rfl⟩, le_of_lt hlt, ?_, ?_⟩
      · simp only [adopt, hd, hlt, if_true]
      · simp only [adopt_node, hd, hlt, if_true]
      · rcases hmem with h | h
        · exact Or.inl h
        · exact Or.inr h
      · intro ho p hp
        exact hveq ▸ hmin ho p hp
    · refine ⟨bl, bdl, ?_, ?_, hb, le_refl _, Or.inl rfl, ?_⟩
      · simp only [adopt, hd, hlt, if_false]
      · simp only [adopt_node, hd, hlt, if_false]
      · intro ho p hp
        have h1 : bdl ≤ v := hveq ▸ not_lt.mp hlt
        exact le_trans h1 (hmin ho p hp)

/-- Lines 148-168 for a near child `c1` and a far child `c2` whose recursive calls satisfy
`SearchResult`; `ord` stands for the k-d ordering at the parent. -/
theorem search_branches_spec (query : Point α) (c1 c2 : Node α) (depth : Nat)
    (f1 f2 : Node α → α → Except Fault (Node α)) (ord : Prop)
    (hf1 : ∀ bl bdl, IsBest query bl bdl →
      ∃ r, f1 bl bdl = .ok r ∧ SearchResult query c1 depth bl bdl r)
    (hf2 : ∀ bl bdl, IsBest query bl bdl →
      ∃ r, f2 bl bdl = .ok r ∧ SearchResult query c2 depth bl bdl r)
    (ho1 : ord → c1.ordered query.dimension depth)
    (ho2 : ord → c2.ordered query.dimension depth)
    (d_axis_squared : α)
    (hfar : ord → ∀ p ∈ c2.points, d_axis_squared ≤ read_distance p query)
    (bl0 : Node α) (bdl0 : α) (h0 : IsBest query bl0 bdl0) :
    ∃ r v, search_branches query d_axis_squared f1 f2 bl0 bdl0 = .ok r
      ∧ IsBest query r v ∧ v ≤ bdl0
      ∧ (r = bl0 ∨ r ∈ c1.subnodes ∨ r ∈ c2.subnodes)
      ∧ (ord → ∀ p ∈ c1.points ++ c2.points, v ≤ read_distance p query) := by
  obtain ⟨r1, hr1, hs1⟩ := hf1 bl0 bdl0 h0
  obtain ⟨bl1, bdl1, ha1, _, hb1, hle1, hm1, hmin1⟩ :=
    adopt_of_search_result query c1 depth bl0 bdl0 r1 h0 hs1
  by_cases hprune : d_axis_squared < bdl1
  · obtain ⟨r2, hr2, hs2⟩ := hf2 bl1 bdl1 hb1
    obtain ⟨bl2, bdl2, _, ha2, hb2, hle2, hm2, hmin2⟩ :=
      adopt_of_search_result query c2 depth bl1 bdl1 r2 hb1 hs2
    refine ⟨bl2, bdl2, ?_, hb2, le_trans hle2 hle1, ?_, ?_⟩
    · simp only [search_branches, hr1, ha1, hprune, if_true, hr2, ha2]
    · rcases hm2 with h | h
      · rw [h]
        rcases hm1 with h' | h'
        · exact Or.inl h'
        · exact Or.inr (Or.inl h')
      · exact Or.inr (Or.inr h)
    · intro ho p hp
      rcases List.mem_append.mp hp with h | h
      · exact le_trans hle2 (hmin1 (ho1 ho) p h)
      · exact hmin2 (ho2 ho) p h
  · refine ⟨bl1, bdl1, ?_, hb1, hle1, ?_, ?_⟩
    · simp only [search_branches, hr1, ha1, hprune, if_false]
    · rcases hm1 with h | h
      · exact Or.inl h
      · exact Or.inr (Or.inl h)
    · intro ho p hp
      rcases List.mem_append.mp hp with h | h
      · exact hmin1 (ho1 ho) p h
      · exact le_trans (not_lt.mp hprune) (hfar ho p h)

/-- What `nearest` returns, for a query of positive dimension and a tree whose points have the
dimension of the query: it returns (no fault), and the result satisfies `SearchResult`. -/
theorem nearest_spec (query : Point α) (hq : 0 < query.dimension) :
    ∀ (root : Node α) (depth : Nat) (best : Node α) (best_dist : α),
      (∀ p ∈ root.points, p.dimension = query.dimension) → IsBest query best best_dist →
      ∃ r, nearest root query depth best best_dist = .ok r
        ∧ SearchResult query root depth best best_dist r := by
  intro root
  induction root with
  | nullptr =>
    intro depth best best_dist _ _
    exact ⟨.nullptr, rfl, Or.inl ⟨rfl, rfl⟩⟩
  | mk point left right ihl ihr =>
    intro depth best best_dist hdims hbest
    have hp : point.dimension = query.dimension := hdims point (List.mem_cons_self _ _)
    have hdl : ∀ p ∈ left.points, p.dimension = query.dimension := fun p h =>
      hdims p (List.mem_cons_of_mem _ (List.mem_append_left _ h))
    have hdr : ∀ p ∈ right.points, p.dimension = query.dimension := fun p h =>
      hdims p (List.mem_cons_of_mem _ (List.mem_append_right _ h))
    have hax : depth % query.dimension < query.dimension := Nat.mod_lt _ hq
    have hq0 : ¬ query.dimension = 0 := by omega
    rw [nearest_mk, if_neg hq0, distance_squared_eq_read point query hp]
    simp only
    -- the running best after lines 130-133
    have h0 : ∃ bl0 bdl0,
        (if read_distance point query < best_dist then Node.mk point left right else best) = bl0
        ∧ (if read_distance point query < best_dist then read_distance point query
            else best_dist) = bdl0
        ∧ IsBest query bl0 bdl0 ∧ bdl0 ≤ best_dist ∧ bdl0 ≤ read_distance point query
        ∧ (bl0 = best ∨ bl0 = Node.mk point left right) := by
      by_cases h : read_distance point query < best_dist
      · exact ⟨_, _, rfl, rfl, by simp only [h, if_true]; exact ⟨point, left, right, rfl, hp, rfl⟩,
          by simp only [h, if_true]; exact le_of_lt h, by simp only [h, if_true]; exact le_refl _,
          by simp [h]⟩
      · exact ⟨_, _, rfl, rfl, by simp only [h, if_false]; exact hbest,
          by simp only [h, if_false]; exact le_refl _,
          by simp only [h, if_false]; exact not_lt.mp h,
          by simp [h]⟩
    obtain ⟨bl0, bdl0, e1, e2, hb0, hle0, hled, hmem0⟩ := h0
    rw [e1, e2]
    have hfl := fun bl bdl (h : IsBest query bl bdl) => ihl (depth + 1) bl bdl hdl h
    have hfr := fun bl bdl (h : IsBest query bl bdl) => ihr (depth + 1) bl bdl hdr h
    have hol : (Node.mk point left right).ordered query.dimension depth →
        left.ordered query.dimension (depth + 1) := fun h => h.2.2.1
    have hor : (Node.mk point left right).ordered query.dimension depth →
        right.ordered query.dimension (depth + 1) := fun h => h.2.2.2
    by_cases hneg : query.coord (depth % query.dimension)
        - point.coord (depth % query.dimension) < 0
    · -- the query is below the node on the axis: near child left, far child right
      simp only [hneg, if_true]
      have hfar : (Node.mk point left right).ordered query.dimension depth →
          ∀ p ∈ right.points,
            (query.coord (depth % query.dimension) - point.coord (depth % query.dimension))
              * (query.coord (depth % query.dimension) - point.coord (depth % query.dimension))
            ≤ read_distance p query := by
        intro ho p hpm
        have h1 := ho.2.1 p hpm
        have h2 : 0 ≤ point.coord (depth % query.dimension)
            - query.coord (depth % query.dimension) := by linarith
        have h3 := mul_self_le_mul_self h2
          (show point.coord (depth % query.dimension) - query.coord (depth % query.dimension)
            ≤ p.coord (depth % query.dimension) - query.coord (depth % query.dimension) by
            linarith)
        refine le_trans ?_ (sq_diff_le_read_distance p query _ hax)
        unfold sq_diff
        linarith
      obtain ⟨r, v, hres, hbv, hlev, hmemv, hminv⟩ :=
        search_branches_spec query left right (depth + 1) _ _ _ hfl hfr hol hor _ hfar
          bl0 bdl0 hb0
      refine ⟨r, hres, Or.inr ⟨by simp, v, hbv, le_trans hlev hle0, ?_, ?_⟩⟩
      · rcases hmemv with h | h | h
        · rcases hmem0 with h' | h'
          · exact Or.inl (h.trans h')
          · exact Or.inr (by rw [h, h']; exact List.mem_cons_self _ _)
        · exact Or.inr (List.mem_cons_of_mem _ (List.mem_append_left _ h))
        · exact Or.inr (List.mem_cons_of_mem _ (List.mem_append_right _ h))
      · intro ho p hpm
        rcases List.mem_cons.mp hpm with h | h
        · rw [h]; exact le_trans hlev hled
        · exact hminv ho p h
    · -- the query is not below the node on the axis: near child right, far child left
      simp only [hneg, if_false]
      have hfar : (Node.mk point left right).ordered query.dimension depth →
          ∀ p ∈ left.points,
            (query.coord (depth % query.dimension) - point.coord (depth % query.dimension))
              * (query.coord (depth % query.dimension) - point.coord (depth % query.dimension))
            ≤ read_distance p query := by
        intro ho p hpm
        have h1 := ho.1 p hpm
        have h2 : 0 ≤ query.coord (depth % query.dimension)
            - point.coord (depth % query.dimension) := not_lt.mp hneg
        have h3 := mul_self_le_mul_self h2
          (show query.coord (depth % query.dimension) - point.coord (depth % query.dimension)
            ≤ query.coord (depth % query.dimension) - p.coord (depth % query.dimension) by
            linarith)
        refine le_trans ?_ (sq_diff_le_read_distance p query _ hax)
        unfold sq_diff
        linarith
      obtain ⟨r, v, hres, hbv, hlev, hmemv, hminv⟩ :=
        search_branches_spec query right left (depth + 1) _ _ _ hfr hfl hor hol _ hfar
          bl0 bdl0 hb0
      refine ⟨r, hres, Or.inr ⟨by simp, v, hbv, le_trans hlev hle0, ?_, ?_⟩⟩
      · rcases hmemv with h | h | h
        · rcases hmem0 with h' | h'
          · exact Or.inl (h.trans h')
          · exact Or.inr (by rw [h, h']; exact List.mem_cons_self _ _)
        · exact Or.inr (List.mem_cons_of_mem _ (List.mem_append_right _ h))
        · exact Or.inr (List.mem_cons_of_mem _ (List.mem_append_left _ h))
      · intro ho p hpm
        rcases List.mem_cons.mp hpm with h | h
        · rw [h]; exact le_trans hlev hled
        · rcases List.mem_append.mp h with h' | h'
          · exact hminv ho p (List.mem_append_right _ h')
          · exact hminv ho p (List.mem_append_left _ h')

/-! ### The partition and the tree, continued -/

/-- C17, counterexample: in a run with `dim = 4` the index points at positions 0 and 1 of `x`
differ by 3 on axis 0 only, so the sum over the 4 axes is 9; the loop of line 33 makes one pass
over eight lanes, reads the indices 4 .. 7 as well (the coordinates of the next points in `x`),
and `distance_squared` returns 18. -/
theorem distance_squared_reads_past_dimension :
    (index_point 4 x_four 0).dimension = (index_point 4 x_four 1).dimension
      ∧ (index_point 4 x_four 0).distance_squared (index_point 4 x_four 1) = .ok 18
      ∧ scalar_sum_of_squares (index_point 4 x_four 0) (index_point 4 x_four 1) 4 = 9 := by
  decide

/-- C15, evaluated: for 3 index points and 2 workers (`size = 3`) line 226 gives the chunk size
1, while the ceiling of the exact quotient 3 / 2 is 2. -/
theorem chunk_size_not_ceiling : chunk_size 3 3 = .ok 1 ∧ exact_ceiling 3 2 = 2 := by
  refine ⟨by decide, ?_⟩
  unfold exact_ceiling
  rw [Int.ceil_eq_iff]
  norm_num

/-- C11, evaluated: with one process (`size = 1`, no worker) line 226 divides by zero. Nothing
checks the pool size before: the run does not end in an exit with a status and a message, and no
range is sent and no result is computed. -/
theorem chunk_size_one_process (num_points : Nat) :
    chunk_size num_points 1 = .error .division_by_zero
      ∧ (∀ status message, chunk_size num_points 1 ≠ .error (.exited status message))
      ∧ ∀ (distance : Point α → Point α → α) (dim : Nat) (x : List α) (q : Nat),
          global_min_dist distance dim num_points 1 x q = .error .division_by_zero := by
  have h : chunk_size num_points 1 = .error .division_by_zero := rfl
  refine ⟨h, ?_, ?_⟩
  · intro status message hc
    rw [h] at hc
    cases hc
  · intro distance dim x q
    simp only [global_min_dist, h]

/-- C13, evaluated: for the three points at 5, 1 and 0 on axis 0, `build_tree_rec` stores the
point at 5 in the node, with the point at 1 on the left and the point at 0 on the right; in the
list sorted on axis 0 the element at index `3 / 2` is the point at 1, the point at 0 has the
rank below and the point at 5 the rank above. -/
theorem build_tree_rec_not_median :
    build_tree_rec [far_point, low_point, origin_point] 0
        = .ok (.mk far_point (.mk low_point .nullptr .nullptr)
            (.mk origin_point .nullptr .nullptr))
      ∧ std_sort (fun a b => Point.compare a b (0 % 8)) [far_point, low_point, origin_point]
        = [origin_point, low_point, far_point]
      ∧ (std_sort (fun a b => Point.compare a b (0 % 8))
          [far_point, low_point, origin_point]).get? (3 / 2) = some low_point := by
  decide

theorem send_ranges_spec (c : Nat) :
    ∀ (n start : Nat), ∀ r ∈ send_ranges c n start (start + c),
      r.2 = r.1 + c ∧ start ≤ r.1 ∧ r.2 ≤ start + n * c := by
  intro n
  induction n with
  | zero => intro start r hr; simp [send_ranges] at hr
  | succ n ih =>
    intro start r hr
    simp only [send_ranges, List.mem_cons] at hr
    rcases hr with h | h
    · subst h
      refine ⟨rfl, le_refl _, ?_⟩
      simp only [Nat.add_mul, Nat.one_mul]
      omega
    · obtain ⟨h1, h2, h3⟩ := ih (start + c) r h
      refine ⟨h1, by omega, ?_⟩
      simp only [Nat.add_mul, Nat.one_mul]
      omega

/-- C20: for every number of index points and at least one worker (`size >= 2`), line 226
returns a chunk size, and every range `(start, end)` the coordinator sends has
`start <= end <= num_points` and `end - start = chunk_size`: the worker creates exactly
`chunk_size` points, its assertion `i == chunk_size` holds and it goes on to build its tree. -/
theorem coordinator_ranges_fill_chunk (num_points size : Nat) (hsize : 2 ≤ size) :
    ∃ c, chunk_size num_points size = .ok c
      ∧ ∀ r ∈ coordinator_ranges num_points size c,
          r.1 ≤ r.2 ∧ r.2 ≤ num_points ∧ r.2 - r.1 = c
          ∧ ∀ (dim : Nat) (x : List α),
              (worker_points dim x r.1 r.2).length = c
              ∧ worker_tree dim x c r.1 r.2 = build_tree (worker_points dim x r.1 r.2) := by
  have hne : ¬ size - 1 = 0 := by omega
  have hle : num_points / (size - 1) ≤ num_points := Nat.div_le_self _ _
  have hmul : (size - 1) * (num_points / (size - 1)) ≤ num_points :=
    Nat.mul_div_le num_points (size - 1)
  refine ⟨num_points / (size - 1), by simp [chunk_size, hne], ?_⟩
  generalize num_points / (size - 1) = c at hle hmul ⊢
  intro r hr
  simp only [coordinator_ranges, Nat.zero_add, min_eq_left hle] at hr
  obtain ⟨h1, _, h3⟩ := send_ranges_spec c (size - 1) 0 r (by simpa using hr)
  have hlen : ∀ (dim : Nat) (x : List α), (worker_points dim x r.1 r.2).length = c := by
    intro dim x
    simp only [worker_points, List.length_map, List.length_range']
    omega
  refine ⟨by omega, by omega, by omega, fun dim x => ⟨hlen dim x, ?_⟩⟩
  simp only [worker_tree, hlen dim x, ne_eq, not_true_eq_false, if_false]

theorem Node.size_eq_length_points {β : Type} (t : Node β) : t.size = t.points.length := by
  induction t with
  | nullptr => rfl
  | mk point left right ihl ihr =>
    simp only [Node.size, Node.points, List.length_cons, List.length_append, ihl, ihr]
    omega

/-- On points of positive dimension the tree of `build_tree_rec` stores the points of the
slice, each as often as the slice has it. -/
theorem build_tree_rec_fuel_perm :
    ∀ (fuel : Nat) (l : List (Point α)) (depth : Nat), l.length ≤ fuel →
      (∀ p ∈ l, 0 < p.dimension) →
      ∃ t, build_tree_rec_fuel fuel l depth = .ok t ∧ t.points.Perm l := by
  intro fuel
  induction fuel with
  | zero =>
    intro l depth h _
    have : l = [] := List.eq_nil_of_length_eq_zero (by omega)
    subst this
    exact ⟨.nullptr, rfl, List.Perm.refl _⟩
  | succ fuel ih =>
    intro l depth h hpos
    match l, h, hpos with
    | [], _, _ => exact ⟨.nullptr, rfl, List.Perm.refl _⟩
    | [p], _, _ => exact ⟨.mk p .nullptr .nullptr, rfl, List.Perm.refl _⟩
    | p0 :: p1 :: rest, h, hpos =>
      obtain ⟨median, right_points, hd, hb⟩ :=
        build_tree_rec_fuel_step fuel p0 p1 rest depth (hpos p0 (List.mem_cons_self _ _))
      have hlen := sorted_slice_length (p0 :: p1 :: rest) (depth % p0.dimension)
      have hperm := sorted_slice_perm (p0 :: p1 :: rest) (depth % p0.dimension)
      have hr := congrArg List.length hd
      simp only [List.length_drop, hlen, List.length_cons] at hr h
      obtain ⟨tl, hl, hlp⟩ := ih ((sorted_slice (p0 :: p1 :: rest)
        (depth % p0.dimension)).take ((p0 :: p1 :: rest).length / 2)) (depth + 1)
        (by simp only [List.length_take, hlen, List.length_cons]; omega)
        (fun p hp => hpos p (hperm.subset (List.mem_of_mem_take hp)))
      obtain ⟨tr, hrr, hrp⟩ := ih (right_points.take
        ((p0 :: p1 :: rest).length - (p0 :: p1 :: rest).length / 2 - 1)) (depth + 1)
        (by simp only [List.length_take, List.length_cons]; omega)
        (fun p hp => hpos p (hperm.subset (List.mem_of_mem_drop
          (hd ▸ List.mem_cons_of_mem _ (List.mem_of_mem_take hp)))))
      have htake : right_points.take
          ((p0 :: p1 :: rest).length - (p0 :: p1 :: rest).length / 2 - 1) = right_points :=
        List.take_of_length_le (by simp only [List.length_cons]; omega)
      rw [htake] at hrp
      refine ⟨.mk median tl tr, ?_, ?_⟩
      · rw [hb, hl, hrr]
        rfl
      · have h1 : (Node.mk median tl tr).points.Perm
            (median :: ((sorted_slice (p0 :: p1 :: rest) (depth % p0.dimension)).take
              ((p0 :: p1 :: rest).length / 2) ++ right_points)) :=
          List.Perm.cons median (List.Perm.append hlp hrp)
        have h2 := (@List.perm_middle _ median
          ((sorted_slice (p0 :: p1 :: rest) (depth % p0.dimension)).take
              ((p0 :: p1 :: rest).length / 2)) right_points).symm
        rw [← hd, List.take_append_drop] at h2
        exact (h1.trans h2).trans hperm

/-- C18: for every list of points (of positive dimension) `build_tree` returns a tree with
exactly as many nodes as the list has points, and the points stored in the nodes are the points
of the list, each as often as in the list: none is lost, none is duplicated. -/
theorem build_tree_keeps_points (l : List (Point α)) (hpos : ∀ p ∈ l, 0 < p.dimension) :
    ∃ t, build_tree l = .ok t ∧ t.size = l.length ∧ t.points.Perm l := by
  obtain ⟨t, ht, hp⟩ := build_tree_rec_fuel_perm l.length l 0 (Nat.le_refl _) hpos
  exact ⟨t, ht, by rw [Node.size_eq_length_points, hp.length_eq], hp⟩

theorem Node.height_of_split_sizes {β : Type} (t : Node β) (h : t.split_sizes) :
    t.height = if t.size = 0 then 0 else Nat.log 2 t.size + 1 := by
  induction t with
  | nullptr => rfl
  | mk point left right ihl ihr =>
    obtain ⟨h1, h2, h3, h4⟩ := h
    have hl := ihl h3
    have hr := ihr h4
    have hn : (Node.mk point left right).size = 1 + left.size + right.size := rfl
    generalize (Node.mk point left right).size = n at h1 h2 hn
    have hle : right.height ≤ left.height := by
      rw [hl, hr]
      by_cases hr0 : right.size = 0
      · simp [hr0]
      · have hl0 : left.size ≠ 0 := by omega
        simp only [hr0, hl0, if_false]
        have := Nat.log_mono_right (b := 2) (show right.size ≤ left.size by omega)
        omega
    have hn0 : ¬ n = 0 := by omega
    show 1 + max left.height right.height = _
    rw [max_eq_left hle, hl, if_neg hn0]
    by_cases hl0 : left.size = 0
    · have hn1 : n = 1 := by omega
      rw [if_pos hl0, hn1]
      simp
    · have hn2 : 2 ≤ n := by omega
      have hdiv : Nat.log 2 (n / 2) = Nat.log 2 n - 1 := Nat.log_div_base 2 n
      have hpos : 0 < Nat.log 2 n := Nat.log_pos (by decide) hn2
      rw [if_neg hl0, h1, hdiv]
      omega

/-- C16: for every list of `n >= 1` points (of positive dimension) `build_tree` returns a tree
whose depth, the number of edges on the longest path from the root to a leaf, is at most
`ceil(log2 n)`. -/
theorem build_tree_depth (l : List (Point α)) (hn : 1 ≤ l.length)
    (hpos : ∀ p ∈ l, 0 < p.dimension) :
    ∃ t, build_tree l = .ok t ∧ t.depth ≤ Nat.clog 2 l.length := by
  obtain ⟨t, ht, hs, hsp⟩ := build_tree_rec_fuel_size l.length l 0 (Nat.le_refl _) hpos
  refine ⟨t, ht, ?_⟩
  have hh := Node.height_of_split_sizes t hsp
  have hs0 : ¬ t.size = 0 := by omega
  rw [if_neg hs0, hs] at hh
  have := Nat.log_le_clog 2 l.length
  simp only [Node.depth, hh]
  omega

/-! ### nearest_neighbor -/

theorem Node.point_mem_of_subnode {β : Type} (t : Node β) (p : Point β) (l r : Node β)
    (h : Node.mk p l r ∈ t.subnodes) : p ∈ t.points := by
  induction t with
  | nullptr => cases h
  | mk point left right ihl ihr =>
    simp only [Node.subnodes, List.mem_cons, List.mem_append] at h
    simp only [Node.points, List.mem_cons, List.mem_append]
    rcases h with h | h | h
    · injection h with h1 _ _
      exact Or.inl h1
    · exact Or.inr (Or.inl (ihl h))
    · exact Or.inr (Or.inr (ihr h))

/-- C14: for every non-empty tree, k-d ordered or not, and every query (of positive dimension,
the dimension of the points of the tree), `nearest_neighbor` returns a node that is not null,
belongs to the tree, and whose squared distance to the query is at most that of the point of
the root. -/
theorem nearest_neighbor_in_tree (point : Point α) (left right : Node α) (query : Point α)
    (hq : 0 < query.dimension)
    (hdim : ∀ p ∈ (Node.mk point left right).points, p.dimension = query.dimension) :
    ∃ p l r v v0, nearest_neighbor (.mk point left right) query = .ok (.mk p l r)
      ∧ Node.mk p l r ∈ (Node.mk point left right).subnodes
      ∧ p.distance_squared query = .ok v
      ∧ point.distance_squared query = .ok v0
      ∧ v ≤ v0 := by
  have hp : point.dimension = query.dimension := hdim point (List.mem_cons_self _ _)
  have hd := distance_squared_eq_read point query hp
  obtain ⟨res, hres, hs⟩ := nearest_spec query hq (.mk point left right) 0
    (.mk point left right) (read_distance point query) hdim ⟨point, left, right, rfl, hp, rfl⟩
  rcases hs with ⟨hnull, _⟩ | ⟨_, v, ⟨p, l, r, hreq, hpd, hv⟩, hle, hmem, _⟩
  · cases hnull
  · subst hreq
    refine ⟨p, l, r, v, read_distance point query, ?_, ?_, ?_, hd, hle⟩
    · simp only [nearest_neighbor, hd, hres]
    · rcases hmem with h | h
      · rw [h]; exact List.mem_cons_self _ _
      · exact h
    · rw [hv]; exact distance_squared_eq_read p query hpd

/-- Witness of C14 on the tree that is not k-d ordered. -/
theorem nearest_neighbor_in_tree_witness :
    0 < query_six.dimension
      ∧ (∀ p ∈ unordered_tree.points, p.dimension = query_six.dimension)
      ∧ ∃ p l r v v0, nearest_neighbor unordered_tree query_six = .ok (.mk p l r)
          ∧ Node.mk p l r ∈ unordered_tree.subnodes
          ∧ p.distance_squared query_six = .ok v
          ∧ low_point.distance_squared query_six = .ok v0
          ∧ v ≤ v0 :=
  ⟨by decide, by decide,
    nearest_neighbor_in_tree low_point (.mk far_point .nullptr .nullptr) .nullptr query_six
      (by decide) (by decide)⟩

/-- C12: for every non-empty tree that is k-d ordered (on the axis `depth mod dimension` of
each node, the points on its left are not above its point and the points on its right are not
below) and every query (of positive dimension, the dimension of the points of the tree),
`nearest_neighbor` returns a node of the tree whose squared distance to the query is the
minimum over the points of the tree: no skipped far child holds a closer point. -/
theorem nearest_neighbor_minimal (root : Node α) (query : Point α) (hne : root ≠ .nullptr)
    (hq : 0 < query.dimension)
    (hdim : ∀ p ∈ root.points, p.dimension = query.dimension)
    (hord : root.ordered query.dimension 0) :
    ∃ p l r v, nearest_neighbor root query = .ok (.mk p l r)
      ∧ Node.mk p l r ∈ root.subnodes
      ∧ p.distance_squared query = .ok v
      ∧ ∀ p' ∈ root.points, ∃ v', p'.distance_squared query = .ok v' ∧ v ≤ v' := by
  cases root with
  | nullptr => exact absurd rfl hne
  | mk point left right =>
    have hp : point.dimension = query.dimension := hdim point (List.mem_cons_self _ _)
    have hd := distance_squared_eq_read point query hp
    obtain ⟨res, hres, hs⟩ := nearest_spec query hq (.mk point left right) 0
      (.mk point left right) (read_distance point query) hdim
      ⟨point, left, right, rfl, hp, rfl⟩
    rcases hs with ⟨hnull, _⟩ | ⟨_, v, ⟨p, l, r, hreq, hpd, hv⟩, _, hmem, hmin⟩
    · cases hnull
    · subst hreq
      refine ⟨p, l, r, v, ?_, ?_, ?_, ?_⟩
      · simp only [nearest_neighbor, hd, hres]
      · rcases hmem with h | h
        · rw [h]; exact List.mem_cons_self _ _
        · exact h
      · rw [hv]; exact distance_squared_eq_read p query hpd
      · intro p' hp'
        exact ⟨read_distance p' query, distance_squared_eq_read p' query (hdim p' hp'),
          hmin hord p' hp'⟩

/-- Witness of C12 on the k-d ordered tree of two points. -/
theorem nearest_neighbor_minimal_witness :
    ordered_tree ≠ .nullptr ∧ 0 < query_six.dimension
      ∧ (∀ p ∈ ordered_tree.points, p.dimension = query_six.dimension)
      ∧ ordered_tree.ordered query_six.dimension 0
      ∧ ∃ p l r v, nearest_neighbor ordered_tree query_six = .ok (.mk p l r)
          ∧ Node.mk p l r ∈ ordered_tree.subnodes
          ∧ p.distance_squared query_six = .ok v
          ∧ ∀ p' ∈ ordered_tree.points,
              ∃ v', p'.distance_squared query_six = .ok v' ∧ v ≤ v' :=
  ⟨by decide, by decide, by decide, by decide,
    nearest_neighbor_minimal ordered_tree query_six (by decide) (by decide) (by decide)
      (by decide)⟩

/-- Witness of C16 for three points of dimension 8. -/
theorem build_tree_depth_witness :
    1 ≤ [far_point, low_point, origin_point].length
      ∧ (∀ p ∈ [far_point, low_point, origin_point], 0 < p.dimension)
      ∧ ∃ t, build_tree [far_point, low_point, origin_point] = .ok t
          ∧ t.depth ≤ Nat.clog 2 [far_point, low_point, origin_point].length :=
  ⟨by decide, by decide,
    build_tree_depth [far_point, low_point, origin_point] (by decide) (by decide)⟩

/-- Witness of C18 for three points of dimension 8. -/
theorem build_tree_keeps_points_witness :
    (∀ p ∈ [low_point, origin_point, far_point], 0 < p.dimension)
      ∧ ∃ t, build_tree [low_point, origin_point, far_point] = .ok t
          ∧ t.size = [low_point, origin_point, far_point].length
          ∧ t.points.Perm [low_point, origin_point, far_point] :=
  ⟨by decide, build_tree_keeps_points [low_point, origin_point, far_point] (by decide)⟩

/-- C17, amended: for two points of equal dimension `d`, `distance_squared` returns the sum of
the squared differences of the first `lanes_read d` coordinates read through the two pointers,
`d` rounded up to a multiple of 8: the `d` axes when `d` is a multiple of 8, and the indices
`d .. lanes_read d - 1` as well when it is not. -/
theorem distance_squared_eq_lanes (a b : Point α) (hdim : a.dimension = b.dimension) :
    a.distance_squared b = .ok (scalar_sum_of_squares a b (lanes_read a.dimension)) :=
  distance_squared_lanes a b hdim

/-- Witness of C17, amended, at two points of dimension 4. -/
theorem distance_squared_eq_lanes_witness :
    (index_point 4 x_four 0).dimension = (index_point 4 x_four 1).dimension
      ∧ (index_point 4 x_four 0).distance_squared (index_point 4 x_four 1)
        = .ok (scalar_sum_of_squares (index_point 4 x_four 0) (index_point 4 x_four 1)
            (lanes_read (index_point 4 x_four 0).dimension)) :=
  ⟨by decide,
    distance_squared_eq_lanes (index_point 4 x_four 0) (index_point 4 x_four 1) (by decide)⟩

/-- Witness of C20 for 7 index points and 2 workers. -/
theorem coordinator_ranges_fill_chunk_witness :
    2 ≤ 3 ∧ ∃ c, chunk_size 7 3 = .ok c
      ∧ ∀ r ∈ coordinator_ranges 7 3 c,
          r.1 ≤ r.2 ∧ r.2 ≤ 7 ∧ r.2 - r.1 = c
          ∧ ∀ (dim : Nat) (x : List ℤ),
              (worker_points dim x r.1 r.2).length = c
              ∧ worker_tree dim x c r.1 r.2 = build_tree (worker_points dim x r.1 r.2) :=
  ⟨by decide, coordinator_ranges_fill_chunk 7 3 (by decide)⟩

end MoreProofs

end KdTree
